import Mathlib

/-!
# Numerical toolkit: interpolation, quadrature, series and root finding

A shallow embedding of the numerical routines of the repository
(`6-9-29`, `task_2`, `1-8-19`, `task_1`) over an ordered field `K`
(exact arithmetic), followed by theorems about them.  Library functions
of `<cmath>` (`sin`, `exp`, `tan`, `cos`, `sqrt`) and the constant `M_PI`
enter the definitions as parameters; the theorems about them instantiate
`K := ℝ` with the functions of Mathlib.
-/

open Finset

namespace NumToolkit

section Interpolation

variable {K : Type} [LinearOrderedField K]

/-- A matrix of numbers addressed by row and column
(`std::vector<std::vector<double>>`). -/
abbrev Table (K : Type) := Nat → Nat → K

/-- The assignment `d[i][j] = v`. -/
def Table.assign (d : Table K) (i j : Nat) (v : K) : Table K :=
  fun a b => if a = i ∧ b = j then v else d a b

/-- `divided_differences` of `6-9-29/.../main.cpp` in exact arithmetic: the
table starts at `0.0`, column `0` receives `y`, and column `j` (for
`j = 1 .. n-1`) is filled for the rows `i = 0 .. n-j-1` from column `j-1`.
A quotient by zero is `0` here, where the `double` arithmetic of the code gives
an infinity or a NaN: see `Binary64.divided_differences`. -/
def divided_differences (x y : List K) : Table K :=
  let n := x.length
  let diff0 : Table K := fun _ _ => 0
  let diff1 := (List.range n).foldl (fun (d : Table K) (i : Nat) => d.assign i 0 (y.getD i 0)) diff0
  (List.range' 1 (n - 1)).foldl
    (fun (d : Table K) (j : Nat) =>
      (List.range (n - j)).foldl
        (fun (d : Table K) (i : Nat) =>
          d.assign i j ((d (i + 1) (j - 1) - d i (j - 1)) / (x.getD (i + j) 0 - x.getD i 0)))
        d)
    diff1

/-- `newton_interpolation` of `6-9-29/.../main.cpp`: the loop state is the pair
`(result, product)`, the loop variable runs over `i = 1 .. n-1`. -/
def newton_interpolation (x_point : K) (x : List K) (diff : Table K) : K :=
  let n := x.length
  ((List.range' 1 (n - 1)).foldl
    (fun (s : K × K) (i : Nat) =>
      let product := s.2 * (x_point - x.getD (i - 1) 0)
      (s.1 + diff 0 i * product, product))
    (diff 0 0, 1)).1

/-- `linear_spline` of `6-9-29/.../main.cpp` in exact arithmetic: `interval` is
the first `i < n-1` with `x[i] ≤ x_point ≤ x[i+1]` (it stays `0` when the scan
finds none), and is replaced by `n-2` when `x_point > x[n-1]`. The rounded
`double` arithmetic of the code is `Binary64.linear_spline`. -/
def linear_spline (x_point : K) (x y : List K) : K :=
  let n := x.length
  let scanned := ((List.range (n - 1)).find?
    (fun (i : Nat) => decide (x_point ≥ x.getD i 0 ∧ x_point ≤ x.getD (i + 1) 0))).getD 0
  let interval := if x_point > x.getD (n - 1) 0 then n - 2 else scanned
  y.getD interval 0 + (y.getD (interval + 1) 0 - y.getD interval 0)
    * (x_point - x.getD interval 0) / (x.getD (interval + 1) 0 - x.getD interval 0)

/-- The divided difference of order `j` on the nodes `i .. i+j`, by the textbook
recurrence (used to describe the entries of the table). -/
def ddRec (X Y : Nat → K) : Nat → Nat → K
  | i, 0 => Y i
  | i, j + 1 => (ddRec X Y (i + 1) j - ddRec X Y i j) / (X (i + j + 1) - X i)

/-- The Newton form on the nodes `i .. i+j`. -/
def newtonPoly (X Y : Nat → K) (i j : Nat) (t : K) : K :=
  ∑ m in range (j + 1), ddRec X Y i m * ∏ k in range m, (t - X (i + k))

/-- The years of the table `data` of `main` in `6-9-29/.../main.cpp`. -/
def years : List K :=
  [1910, 1920, 1930, 1940, 1950, 1960, 1970, 1980, 1990, 2000]

/-- The population values of the table `data` of `main` in `6-9-29/.../main.cpp`. -/
def population : List K :=
  [92228496, 106021537, 123202624, 132164569, 151325798, 179323175, 203211926, 226545805,
    248709873, 281421906]

/-- The constant `actual_2010` of `main` in `6-9-29/.../main.cpp`. -/
def actual_2010 : K := 308745538

/-- The value `newton_2010` of `main` in `6-9-29/.../main.cpp`. -/
def newton_2010 : K :=
  newton_interpolation 2010 years (divided_differences years population)

/-- The value `spline_2010` of `main` in `6-9-29/.../main.cpp`. -/
def spline_2010 : K :=
  linear_spline 2010 years population

/-- The value `newton_error` of `main`: `abs(newton_2010 - actual_2010)`. -/
def newton_error : K :=
  |(newton_2010 : K) - actual_2010|

/-- The value `spline_error` of `main`: `abs(spline_2010 - actual_2010)`. -/
def spline_error : K :=
  |(spline_2010 : K) - actual_2010|

/-- The method that the comparison of `main` prints as the more accurate one:
`newton_error < spline_error ? "ПОЛИНОМ НЬЮТОНА" : "СПЛАЙН-АППРОКСИМАЦИЯ"`. -/
def more_accurate_method (K : Type) [LinearOrderedField K] : String :=
  if (newton_error : K) < spline_error then "ПОЛИНОМ НЬЮТОНА" else "СПЛАЙН-АППРОКСИМАЦИЯ"

end Interpolation

section Quadrature

variable {K : Type} [LinearOrderedField K]

/-- The integrand `f` of `task_2/.../main.cpp`, `sin(100x) * exp(-x*x) * cos(2x)`,
over the library functions `sin`, `exp`, `cos`. -/
def integrand (sin exp cos : K → K) (x : K) : K :=
  sin (100 * x) * exp (-x * x) * cos (2 * x)

/-- `rectangle_method` of `task_2/.../main.cpp`, the integrand `f` taken as a
parameter; `n` is the subdivision count (the source's `int n`, non-negative
here). -/
def rectangle_method (f : K → K) (a b : K) (n : Nat) : K :=
  let h := (b - a) / (n : K)
  let sum := (List.range n).foldl
    (fun (sum : K) (i : Nat) =>
      let x := a + ((i : K) + 0.5) * h
      sum + f x)
    0
  sum * h

/-- `trapezoidal_method` of `task_2/.../main.cpp`; the loop runs over
`i = 1 .. n-1`. -/
def trapezoidal_method (f : K → K) (a b : K) (n : Nat) : K :=
  let h := (b - a) / (n : K)
  let sum := (List.range' 1 (n - 1)).foldl
    (fun (sum : K) (i : Nat) =>
      let x := a + (i : K) * h
      sum + f x)
    (0.5 * (f a + f b))
  sum * h

/-- `simpson_method` of `task_2/.../main.cpp`: an odd `n` is incremented first. -/
def simpson_method (f : K → K) (a b : K) (n : Nat) : K :=
  let n := if n % 2 ≠ 0 then n + 1 else n
  let h := (b - a) / (n : K)
  let sum := (List.range' 1 (n - 1)).foldl
    (fun (sum : K) (i : Nat) =>
      let x := a + (i : K) * h
      if i % 2 = 0 then sum + 2 * f x else sum + 4 * f x)
    (f a + f b)
  sum * h / 3

/-- `three_eights_method` of `task_2/.../main.cpp`: an `n` that is not a multiple
of three is raised by `3 - n % 3` first. -/
def three_eights_method (f : K → K) (a b : K) (n : Nat) : K :=
  let n := if n % 3 ≠ 0 then n + (3 - n % 3) else n
  let h := (b - a) / (n : K)
  let sum := (List.range' 1 (n - 1)).foldl
    (fun (sum : K) (i : Nat) =>
      let x := a + (i : K) * h
      if i % 3 = 0 then sum + 2 * f x else sum + 3 * f x)
    (f a + f b)
  sum * h * 3 / 8

/-- The loop shared by the three Gauss rules: `sum += weights[i] * f(shift + scale * nodes[i])`
for `i = 0 .. count-1`, and the result `sum * scale`. -/
def gauss_rule (nodes weights : List K) (count : Nat) (f : K → K) (a b : K) : K :=
  let scale := (b - a) / 2
  let shift := (a + b) / 2
  let sum := (List.range count).foldl
    (fun (sum : K) (i : Nat) =>
      let x := shift + scale * nodes.getD i 0
      sum + weights.getD i 0 * f x)
    0
  sum * scale

/-- `gauss_2_nodes` of `task_2/.../main.cpp`, over the library function `sqrt`. -/
def gauss_2_nodes (sqrt : K → K) (f : K → K) (a b : K) : K :=
  gauss_rule [-1 / sqrt 3, 1 / sqrt 3] [1, 1] 2 f a b

/-- `gauss_3_nodes` of `task_2/.../main.cpp`, over the library function `sqrt`. -/
def gauss_3_nodes (sqrt : K → K) (f : K → K) (a b : K) : K :=
  gauss_rule [-sqrt (3 / 5), 0, sqrt (3 / 5)] [5 / 9, 8 / 9, 5 / 9] 3 f a b

/-- `gauss_4_nodes` of `task_2/.../main.cpp`, over the library function `sqrt`. -/
def gauss_4_nodes (sqrt : K → K) (f : K → K) (a b : K) : K :=
  gauss_rule
    [-sqrt (3 / 7 + 2 / 7 * sqrt (6 / 5)), -sqrt (3 / 7 - 2 / 7 * sqrt (6 / 5)),
      sqrt (3 / 7 - 2 / 7 * sqrt (6 / 5)), sqrt (3 / 7 + 2 / 7 * sqrt (6 / 5))]
    [(18 - sqrt 30) / 36, (18 + sqrt 30) / 36, (18 + sqrt 30) / 36, (18 - sqrt 30) / 36]
    4 f a b

/-- `runge_error` of `task_2/.../main.cpp` in exact arithmetic:
`fabs(I_h - I_h2) / (pow(2, p) - 1)`, the power never overflowing. The `double`
arithmetic of the code is `Binary64.runge_error`. -/
def runge_error (I_h I_h2 : K) (p : Int) : K :=
  |I_h - I_h2| / ((2 : K) ^ p - 1)

/-- The weight pattern `1-4-2-4-...-4-1` on the points `0 .. n`. -/
def simpson_weight (n i : Nat) : K :=
  if i = 0 ∨ i = n then 1 else if i % 2 = 0 then 2 else 4

/-- The weight pattern `1-3-3-2-3-3-...-3-3-1` on the points `0 .. n`. -/
def three_eights_weight (n i : Nat) : K :=
  if i = 0 ∨ i = n then 1 else if i % 3 = 0 then 2 else 3

end Quadrature

section Series

variable {K : Type} [LinearOrderedField K]

/-- The loop `for (n = 3; n <= n_terms; n += 2)` of the `sin` branch of
`maclaurin_sum`, with the state `(n, term, sum)`; it returns `sum` on exit.
The first argument bounds the number of iterations. -/
def maclaurin_sin_loop (t : K) (n_terms : Int) : Nat → Int → K → K → K
  | 0, _, _, sum => sum
  | fuel + 1, n, term, sum =>
    if n ≤ n_terms then
      let term := -term * t * t / ((n * (n - 1) : Int) : K)
      maclaurin_sin_loop t n_terms fuel (n + 2) term (sum + term)
    else sum

/-- `maclaurin_sum` of `1-8-19/.../main.cpp`.  Every `function_type` other than
`"sin"` takes the `exp` branch, whose loop runs over `n = 1 .. n_terms` with the
state `(term, sum)`.  The `sin` loop runs at most `n_terms` times. -/
def maclaurin_sum (function_type : String) (t : K) (n_terms : Int) : K :=
  if function_type = "sin" then
    maclaurin_sin_loop t n_terms n_terms.toNat 3 t t
  else
    ((List.range' 1 n_terms.toNat).foldl
      (fun (s : K × K) (n : Nat) =>
        let term := s.1 * t / (n : K)
        (term, s.2 + term))
      (1, 1)).2

/-- The C library function `fmod` in exact arithmetic: `x - y * trunc (x / y)`,
the quotient truncated toward zero. -/
def fmod [FloorRing K] (x y : K) : K :=
  x - y * ((if 0 ≤ x / y then ⌊x / y⌋ else ⌈x / y⌉ : Int) : K)

/-- `improved_sin` of `1-8-19/.../main.cpp`, over the constant `M_PI` (in the
code the `double` nearest to `π`, not `π` itself). -/
def improved_sin [FloorRing K] (M_PI : K) (t : K) : K :=
  let reduced_t := fmod t (2 * M_PI)
  let reduced_t :=
    if reduced_t > M_PI then reduced_t - 2 * M_PI
    else if reduced_t < -M_PI then reduced_t + 2 * M_PI
    else reduced_t
  maclaurin_sum "sin" reduced_t 15

/-- The loop `while (reduced_t > 1.0) { reduced_t /= 2.0; k++; }` of
`improved_exp`, with the state `(reduced_t, k)`; `none` when the iteration bound
is exhausted before the loop exits. -/
def improved_exp_reduce : Nat → K → Nat → Option (K × Nat)
  | 0, reduced_t, k => if reduced_t > 1 then none else some (reduced_t, k)
  | fuel + 1, reduced_t, k =>
    if reduced_t > 1 then improved_exp_reduce fuel (reduced_t / 2) (k + 1)
    else some (reduced_t, k)

/-- `improved_exp` of `1-8-19/.../main.cpp`; `fuel` bounds the number of
halvings, the squaring loop runs `k` times. -/
def improved_exp (fuel : Nat) (t : K) : Option K :=
  match improved_exp_reduce fuel t 0 with
  | none => none
  | some (reduced_t, k) =>
    some ((List.range k).foldl (fun (result : K) (_ : Nat) => result * result)
      (maclaurin_sum "exp" reduced_t 15))

/-- The `while` loop of `find_optimal_n`, with the state `(n, error)`; it returns
`n` on exit.  The first argument bounds the number of iterations. -/
def find_optimal_n_loop (function_type : String) (t target_error exact_value : K)
    (max_iterations : Int) : Nat → Int → K → Int
  | 0, n, _ => n
  | fuel + 1, n, error =>
    if error > target_error ∧ n < max_iterations then
      let approx_value := maclaurin_sum function_type t n
      let error := |exact_value - approx_value|
      if error ≤ target_error then n
      else
        find_optimal_n_loop function_type t target_error exact_value max_iterations fuel
          (n + (if function_type = "sin" then 2 else 1)) error
    else n

/-- `find_optimal_n` of `1-8-19/.../main.cpp`, over the library functions `sin`
and `exp`.  The loop raises `n` by at least one per iteration and stops once
`n ≥ max_iterations`, so `max_iterations` iterations are enough. -/
def find_optimal_n (sin exp : K → K) (function_type : String) (t target_error : K) : Int :=
  let exact_value := if function_type = "sin" then sin t else exp t
  let max_iterations : Int := if function_type = "sin" then 50 else 40
  find_optimal_n_loop function_type t target_error exact_value max_iterations
    max_iterations.toNat 1 1

/-- The `j`-th non-zero term of the Maclaurin series of the sine,
`(-1)^j * t^(2j+1) / (2j+1)!`. -/
def sinTerm (t : K) (j : Nat) : K :=
  (-1) ^ j * t ^ (2 * j + 1) / (Nat.factorial (2 * j + 1) : K)

/-- The `j`-th term of the Maclaurin series of the cosine,
`(-1)^j * t^(2j) / (2j)!`. -/
def cosTerm (t : K) (j : Nat) : K :=
  (-1) ^ j * t ^ (2 * j) / (Nat.factorial (2 * j) : K)

end Series

section RootFinding

variable {K : Type} [LinearOrderedField K]

/-- The `for` loop of `newton_method` with `fuel` iterations left, started at `x`. -/
def newton_method_loop (tan cos : K → K) (epsilon : K) : Nat → K → K
  | 0, x => x
  | fuel + 1, x =>
    let f := x * x + tan x * tan x - 1
    let df := 2 * x + 2 * tan x / (cos x * cos x)
    if |df| < 1e-12 then x
    else
      let x_new := x - f / df
      if |x_new - x| < epsilon then x_new
      else newton_method_loop tan cos epsilon fuel x_new

/-- `newton_method` of `task_1/.../main.cpp`, over the library functions `tan`
and `cos`. -/
def newton_method (tan cos : K → K) (x0 epsilon : K) (max_iterations : Int) : K :=
  newton_method_loop tan cos epsilon max_iterations.toNat x0

/-- The function `F(x) = x² + tg²(x) - 1` as `newton_method` computes it
(`double f = x * x + tan(x) * tan(x) - 1`). -/
def newton_F (tan : K → K) (x : K) : K :=
  x * x + tan x * tan x - 1

/-- The derivative as `newton_method` computes it
(`double df = 2 * x + 2 * tan(x) / (cos(x) * cos(x))`). -/
def newton_dF (tan cos : K → K) (x : K) : K :=
  2 * x + 2 * tan x / (cos x * cos x)

/-- The constant `EPS` of `4-12-7-б/.../main.cpp`. -/
def EPS : K := 1e-3

/-- The loop shared by `simple_iteration_left` and `simple_iteration_right`:
`for (i = 0; i < 1000; i++) { iterations++; x_new = g(x); if (fabs(x_new - x) < EPS)
return x_new; x = x_new; } return x;` with `fuel` iterations left, the update `g`
and the state `(x, iterations)`; the result is the returned value and the final
value of the output parameter `iterations`. -/
def simple_iteration_loop (g : K → K) : Nat → K → Nat → K × Nat
  | 0, x, iterations => (x, iterations)
  | fuel + 1, x, iterations =>
    let iterations := iterations + 1
    let x_new := g x
    if |x_new - x| < EPS then (x_new, iterations)
    else simple_iteration_loop g fuel x_new iterations

/-- `simple_iteration_left` of `4-12-7-б/.../main.cpp`, over the library function
`exp`: the update is `x_new = t * exp(x * x)`. -/
def simple_iteration_left (exp : K → K) (t x0 : K) : K × Nat :=
  simple_iteration_loop (fun x => t * exp (x * x)) 1000 x0 0

/-- `simple_iteration_right` of `4-12-7-б/.../main.cpp`, over the library functions
`sqrt` and `log`: the update is `x_new = sqrt(log(x / t))`. -/
def simple_iteration_right (sqrt log : K → K) (t x0 : K) : K × Nat :=
  simple_iteration_loop (fun x => sqrt (log (x / t))) 1000 x0 0

end RootFinding

section FloatingPoint

/-- An IEEE 754 binary64 datum (the C++ type `double`): a NaN, an infinity with
its sign, or the finite number `(-1)^neg * m * 2^e`, a signed zero when `m = 0`. -/
inductive Binary64 where
  | nan : Binary64
  | inf (neg : Bool) : Binary64
  | fin (neg : Bool) (m : Nat) (e : Int) : Binary64
  deriving DecidableEq

namespace Binary64

/-- The number of binary digits of `n`, computed with `fuel ≥` that number of
halvings. -/
def bit_length : Nat → Nat → Nat
  | 0, _ => 0
  | fuel + 1, n => if n = 0 then 0 else bit_length fuel (n / 2) + 1

/-- The exponent of the leading bit of the positive rational `num / den`:
the integer `k` with `2^k ≤ num / den < 2^(k+1)`. -/
def leading_exponent (num den : Nat) : Int :=
  let k : Int := (bit_length num num : Int) - (bit_length den den : Int)
  if num <<< (-k).toNat < den <<< k.toNat then k - 1 else k

/-- Rounding of the exact result `(-1)^neg * num / den` (`den > 0`) to the
nearest `double`, ties to even: 53 significant bits, least exponent `-1074`
(gradual underflow), and an infinity beyond the largest finite number
`(2^53 - 1) * 2^971`. -/
def round (neg : Bool) (num den : Nat) : Binary64 :=
  if num = 0 then fin neg 0 (-1074)
  else
    let e : Int := max (leading_exponent num den - 52) (-1074)
    let N := num <<< (-e).toNat
    let D := den <<< e.toNat
    let q := N / D
    let r := N % D
    let m := if D < 2 * r ∨ (2 * r = D ∧ q % 2 = 1) then q + 1 else q
    if m = 9007199254740992 then (if 971 < e + 1 then inf neg else fin neg 4503599627370496 (e + 1))
    else if 971 < e then inf neg
    else fin neg m e

/-- The `double` that a decimal literal or an integer of value `num / den`
denotes. -/
def lit (num den : Nat) : Binary64 := round false num den

/-- The signed integer `(-1)^neg * m`. -/
def signed (neg : Bool) (m : Nat) : Int := if neg then -(m : Int) else (m : Int)

/-- Unary minus. -/
def neg : Binary64 → Binary64
  | nan => nan
  | inf a => inf (!a)
  | fin a m e => fin (!a) m e

/-- The operator `+` on `double`. -/
def add : Binary64 → Binary64 → Binary64
  | nan, _ => nan
  | _, nan => nan
  | inf a, inf b => if a = b then inf a else nan
  | inf a, fin _ _ _ => inf a
  | fin _ _ _, inf b => inf b
  | fin a m e, fin b n f =>
    let c := min e f
    let s : Int := signed a (m <<< (e - c).toNat) + signed b (n <<< (f - c).toNat)
    if s = 0 then fin (a && b) 0 (-1074)
    else round (decide (s < 0)) (s.natAbs <<< c.toNat) (1 <<< (-c).toNat)

/-- The operator `-` on `double`. -/
def sub (x y : Binary64) : Binary64 := add x (neg y)

/-- The operator `*` on `double`. -/
def mul : Binary64 → Binary64 → Binary64
  | nan, _ => nan
  | _, nan => nan
  | inf a, inf b => inf (xor a b)
  | inf a, fin b n _ => if n = 0 then nan else inf (xor a b)
  | fin a m _, inf b => if m = 0 then nan else inf (xor a b)
  | fin a m e, fin b n f =>
    round (xor a b) ((m * n) <<< (e + f).toNat) (1 <<< (-(e + f)).toNat)

/-- The operator `/` on `double`: a finite non-zero number divided by a zero
is an infinity, `0 / 0` is a NaN; no operation traps. -/
def div : Binary64 → Binary64 → Binary64
  | nan, _ => nan
  | _, nan => nan
  | inf _, inf _ => nan
  | inf a, fin b _ _ => inf (xor a b)
  | fin a _ _, inf b => fin (xor a b) 0 (-1074)
  | fin a m e, fin b n f =>
    if n = 0 then (if m = 0 then nan else inf (xor a b))
    else round (xor a b) (m <<< (e - f).toNat) (n <<< (f - e).toNat)

/-- The operator `<` on `double`. -/
def lt : Binary64 → Binary64 → Bool
  | nan, _ => false
  | _, nan => false
  | inf a, inf b => a && !b
  | inf a, fin _ _ _ => a
  | fin _ _ _, inf b => !b
  | fin a m e, fin b n f =>
    let c := min e f
    decide (signed a (m <<< (e - c).toNat) < signed b (n <<< (f - c).toNat))

/-- The operator `<=` on `double`. -/
def le : Binary64 → Binary64 → Bool
  | nan, _ => false
  | _, nan => false
  | inf a, inf b => a || !b
  | inf a, fin _ _ _ => a
  | fin _ _ _, inf b => !b
  | fin a m e, fin b n f =>
    let c := min e f
    decide (signed a (m <<< (e - c).toNat) ≤ signed b (n <<< (f - c).toNat))

/-- The library predicate `std::isfinite`: neither a NaN nor an infinity. -/
def isfinite : Binary64 → Bool
  | fin _ _ _ => true
  | _ => false

/-- The library function `fabs`. -/
def fabs : Binary64 → Binary64
  | nan => nan
  | inf _ => inf false
  | fin _ m e => fin false m e

/-- The library call `pow(2, p)` for an `int p`: the power `2^p` rounded to a
`double`, an infinity from `p = 1024` on. -/
def pow2 (p : Int) : Binary64 := round false (1 <<< p.toNat) (1 <<< (-p).toNat)

/-- The assignment `d[i][j] = v` on a table of `double`. -/
def assign (d : Nat → Nat → Binary64) (i j : Nat) (v : Binary64) : Nat → Nat → Binary64 :=
  fun a b => if a = i ∧ b = j then v else d a b

/-- `divided_differences` of `6-9-29/.../main.cpp` in `double` arithmetic: the
same loops as the exact `divided_differences`, every operation rounded. -/
def divided_differences (x y : List Binary64) : Nat → Nat → Binary64 :=
  let n := x.length
  let diff0 : Nat → Nat → Binary64 := fun _ _ => lit 0 1
  let diff1 := (List.range n).foldl
    (fun (d : Nat → Nat → Binary64) (i : Nat) => assign d i 0 (y.getD i (lit 0 1))) diff0
  (List.range' 1 (n - 1)).foldl
    (fun (d : Nat → Nat → Binary64) (j : Nat) =>
      (List.range (n - j)).foldl
        (fun (d : Nat → Nat → Binary64) (i : Nat) =>
          assign d i j (div (sub (d (i + 1) (j - 1)) (d i (j - 1)))
            (sub (x.getD (i + j) (lit 0 1)) (x.getD i (lit 0 1)))))
        d)
    diff1

/-- `linear_spline` of `6-9-29/.../main.cpp` in `double` arithmetic: the scan
tests `x_point >= x[i] && x_point <= x[i + 1]`, the override tests
`x_point > x[n - 1]`, and the result is
`y[interval] + (y[interval + 1] - y[interval]) * (x_point - x[interval])
/ (x[interval + 1] - x[interval])`, every operation rounded. -/
def linear_spline (x_point : Binary64) (x y : List Binary64) : Binary64 :=
  let n := x.length
  let scanned := ((List.range (n - 1)).find?
    (fun (i : Nat) =>
      le (x.getD i (lit 0 1)) x_point && le x_point (x.getD (i + 1) (lit 0 1)))).getD 0
  let interval := if lt (x.getD (n - 1) (lit 0 1)) x_point then n - 2 else scanned
  add (y.getD interval (lit 0 1))
    (div (mul (sub (y.getD (interval + 1) (lit 0 1)) (y.getD interval (lit 0 1)))
        (sub x_point (x.getD interval (lit 0 1))))
      (sub (x.getD (interval + 1) (lit 0 1)) (x.getD interval (lit 0 1))))

/-- `runge_error` of `task_2/.../main.cpp` in `double` arithmetic:
`fabs(I_h - I_h2) / (pow(2, p) - 1)`. -/
def runge_error (I_h I_h2 : Binary64) (p : Int) : Binary64 :=
  div (fabs (sub I_h I_h2)) (sub (pow2 p) (lit 1 1))

end Binary64

end FloatingPoint

section InterpolationLemmas

variable {K : Type} [LinearOrderedField K]

theorem newtonPoly_succ (X Y : Nat → K) (i j : Nat) (t : K) :
    newtonPoly X Y i (j + 1) t
      = newtonPoly X Y i j t + ddRec X Y i (j + 1) * ∏ k in range (j + 1), (t - X (i + k)) := by
  unfold newtonPoly
  rw [Finset.sum_range_succ]

theorem ddRec_step (X Y : Nat → K) (i j : Nat) (h : X (i + j + 1) ≠ X i) :
    ddRec X Y i (j + 1) * (X (i + j + 1) - X i) = ddRec X Y (i + 1) j - ddRec X Y i j := by
  have h0 : X (i + j + 1) - X i ≠ 0 := sub_ne_zero.mpr h
  simp only [ddRec]
  field_simp

theorem prod_shift (X : Nat → K) (i j : Nat) (t : K) :
    ∏ k in range (j + 1), (t - X (i + k))
      = (t - X i) * ∏ k in range j, (t - X (i + 1 + k)) := by
  rw [Finset.prod_range_succ']
  simp only [Nat.add_zero]
  rw [mul_comm]
  congr 1
  apply Finset.prod_congr rfl
  intro k _
  congr 2
  omega

/-- Two Newton forms on overlapping windows differ by one product term. -/
theorem newtonPoly_shift_sub (X Y : Nat → K) (n : Nat)
    (hX : ∀ a b, a < b → b < n → X a ≠ X b) :
    ∀ j i : Nat, i + j + 1 < n → ∀ t : K,
      newtonPoly X Y (i + 1) j t - newtonPoly X Y i j t
        = (ddRec X Y (i + 1) j - ddRec X Y i j) * ∏ k in range j, (t - X (i + 1 + k)) := by
  intro j
  induction j with
  | zero =>
    intro i _ t
    simp [newtonPoly, ddRec]
  | succ j ih =>
    intro i hi t
    have hB := ih i (by omega) t
    have hA := ddRec_step X Y i j (Ne.symm (hX i (i + j + 1) (by omega) (by omega)))
    rw [newtonPoly_succ X Y (i + 1) j, newtonPoly_succ X Y i j, prod_shift X i j t,
      Finset.prod_range_succ (fun k => t - X (i + 1 + k)) j]
    have e1 : i + 1 + j = i + j + 1 := by omega
    rw [e1]
    linear_combination hB - (∏ k in range j, (t - X (i + 1 + k))) * hA

/-- The Newton form on the nodes `i .. i+j` passes through each of them. -/
theorem newtonPoly_node (X Y : Nat → K) (n : Nat)
    (hX : ∀ a b, a < b → b < n → X a ≠ X b) :
    ∀ j i l : Nat, l ≤ j → i + j < n → newtonPoly X Y i j (X (i + l)) = Y (i + l) := by
  intro j
  induction j with
  | zero =>
    intro i l hl _
    have : l = 0 := by omega
    subst this
    simp [newtonPoly, ddRec]
  | succ j ih =>
    intro i l hl hi
    rw [newtonPoly_succ]
    rcases Nat.lt_or_ge l (j + 1) with h | h
    · have hz : ∏ k in range (j + 1), (X (i + l) - X (i + k)) = 0 :=
        Finset.prod_eq_zero (Finset.mem_range.mpr h) (sub_self _)
      rw [hz, mul_zero, add_zero]
      exact ih i l (by omega) (by omega)
    · have hl1 : l = j + 1 := by omega
      subst hl1
      have hB := newtonPoly_shift_sub X Y n hX j i (by omega) (X (i + (j + 1)))
      have hA := ddRec_step X Y i j (Ne.symm (hX i (i + j + 1) (by omega) (by omega)))
      have hI := ih (i + 1) j (le_refl j) (by omega)
      have e1 : i + 1 + j = i + (j + 1) := by omega
      rw [e1] at hI
      rw [prod_shift X i j]
      have e2 : i + j + 1 = i + (j + 1) := by omega
      rw [e2] at hA
      rw [← hI]
      linear_combination (∏ k in range j, (X (i + (j + 1)) - X (i + 1 + k))) * hA - hB

/-- One pass of the inner loop of `divided_differences` over the rows `0 .. m-1`
of column `j`. -/
theorem dd_inner_fold (x : List K) (j : Nat) (hj : 1 ≤ j) (d : Table K) :
    ∀ m a b : Nat,
      ((List.range m).foldl
        (fun (d : Table K) (i : Nat) =>
          d.assign i j ((d (i + 1) (j - 1) - d i (j - 1)) / (x.getD (i + j) 0 - x.getD i 0)))
        d) a b
        = if b = j ∧ a < m then
            (d (a + 1) (j - 1) - d a (j - 1)) / (x.getD (a + j) 0 - x.getD a 0)
          else d a b := by
  intro m
  induction m with
  | zero => intro a b; simp
  | succ m ih =>
    intro a b
    rw [List.range_succ, List.foldl_append]
    simp only [List.foldl_cons, List.foldl_nil, Table.assign]
    have hne : ¬ (j - 1 = j) := by omega
    by_cases h1 : a = m ∧ b = j
    · obtain ⟨ha, hb⟩ := h1
      subst ha; subst hb
      rw [ih (a + 1) (b - 1), ih a (b - 1)]
      simp [hne]
    · rw [if_neg h1, ih a b]
      by_cases h2 : b = j ∧ a < m
      · rw [if_pos h2, if_pos ⟨h2.1, by omega⟩]
      · rw [if_neg h2, if_neg]
        rintro ⟨hb, ha⟩
        rcases Nat.lt_or_ge a m with h3 | h3
        · exact h2 ⟨hb, h3⟩
        · exact h1 ⟨by omega, hb⟩

/-- The first loop of `divided_differences` writes `y` into column `0`. -/
theorem dd_init_fold (y : List K) :
    ∀ m a b : Nat,
      ((List.range m).foldl (fun (d : Table K) (i : Nat) => d.assign i 0 (y.getD i 0))
        (fun _ _ => 0)) a b
        = if b = 0 ∧ a < m then y.getD a 0 else 0 := by
  intro m
  induction m with
  | zero => intro a b; simp
  | succ m ih =>
    intro a b
    rw [List.range_succ, List.foldl_append]
    simp only [List.foldl_cons, List.foldl_nil, Table.assign]
    by_cases h1 : a = m ∧ b = 0
    · obtain ⟨ha, hb⟩ := h1
      subst ha; subst hb
      simp
    · rw [if_neg h1, ih a b]
      by_cases h2 : b = 0 ∧ a < m
      · rw [if_pos h2, if_pos ⟨h2.1, by omega⟩]
      · rw [if_neg h2, if_neg]
        rintro ⟨hb, ha⟩
        rcases Nat.lt_or_ge a m with h3 | h3
        · exact h2 ⟨hb, h3⟩
        · exact h1 ⟨by omega, hb⟩

/-- After the columns `1 .. c` have been processed, the entries of the columns
`0 .. c` inside the triangle are the divided differences. -/
theorem dd_outer_fold (x y : List K) :
    ∀ c : Nat, c ≤ x.length - 1 → ∀ a b : Nat, b ≤ c → a + b < x.length →
      ((List.range' 1 c).foldl
        (fun (d : Table K) (j : Nat) =>
          (List.range (x.length - j)).foldl
            (fun (d : Table K) (i : Nat) =>
              d.assign i j
                ((d (i + 1) (j - 1) - d i (j - 1)) / (x.getD (i + j) 0 - x.getD i 0)))
            d)
        ((List.range x.length).foldl (fun (d : Table K) (i : Nat) => d.assign i 0 (y.getD i 0))
          (fun _ _ => 0))) a b
        = ddRec (fun k => x.getD k 0) (fun k => y.getD k 0) a b := by
  intro c
  induction c with
  | zero =>
    intro _ a b hb hab
    have hb0 : b = 0 := by omega
    subst hb0
    simp only [List.range'_zero, List.foldl_nil]
    rw [dd_init_fold, if_pos ⟨rfl, by omega⟩]
    simp only [ddRec]
  | succ c ih =>
    intro hc a b hb hab
    rw [List.range'_1_concat, List.foldl_append]
    simp only [List.foldl_cons, List.foldl_nil]
    rw [dd_inner_fold x (1 + c) (by omega)]
    by_cases h : b = 1 + c ∧ a < x.length - (1 + c)
    · rw [if_pos h]
      obtain ⟨hb1, ha⟩ := h
      subst hb1
      have e : 1 + c - 1 = c := by omega
      rw [e, ih (by omega) (a + 1) c (le_refl c) (by omega), ih (by omega) a c (le_refl c) (by omega)]
      have e2 : 1 + c = c + 1 := by omega
      rw [e2]
      simp only [ddRec]
      have e3 : a + (c + 1) = a + c + 1 := by omega
      rw [e3]
    · rw [if_neg h]
      have hbc : b ≤ c := by
        rcases Nat.lt_or_ge c b with h3 | h3
        · exact absurd ⟨by omega, by omega⟩ h
        · exact h3
      exact ih (by omega) a b hbc hab

/-- Inside the triangle the table built by `divided_differences` holds the
divided differences of the textbook recurrence. -/
theorem divided_differences_eq_ddRec (x y : List K) (a b : Nat) (hab : a + b < x.length) :
    divided_differences x y a b = ddRec (fun k => x.getD k 0) (fun k => y.getD k 0) a b := by
  unfold divided_differences
  exact dd_outer_fold x y (x.length - 1) (le_refl _) a b (by omega) hab

/-- The loop of `newton_interpolation` after `c` iterations. -/
theorem newton_fold (x_point : K) (x : List K) (diff : Table K) :
    ∀ c : Nat,
      (List.range' 1 c).foldl
        (fun (s : K × K) (i : Nat) =>
          let product := s.2 * (x_point - x.getD (i - 1) 0)
          (s.1 + diff 0 i * product, product))
        (diff 0 0, 1)
        = (∑ m in range (c + 1), diff 0 m * ∏ k in range m, (x_point - x.getD k 0),
            ∏ k in range c, (x_point - x.getD k 0)) := by
  intro c
  induction c with
  | zero => simp
  | succ c ih =>
    rw [List.range'_1_concat, List.foldl_append, ih]
    simp only [List.foldl_cons, List.foldl_nil]
    have e : 1 + c - 1 = c := by omega
    have e2 : 1 + c = c + 1 := by omega
    rw [e, e2, Finset.sum_range_succ _ (c + 1), Finset.prod_range_succ _ c]

/-- The value returned by `newton_interpolation` on the table of
`divided_differences` is the Newton form on all the nodes. -/
theorem newton_interpolation_eq_newtonPoly (x_point : K) (x y : List K) (hn : 1 ≤ x.length) :
    newton_interpolation x_point x (divided_differences x y)
      = newtonPoly (fun k => x.getD k 0) (fun k => y.getD k 0) 0 (x.length - 1) x_point := by
  unfold newton_interpolation
  simp only []
  rw [newton_fold]
  unfold newtonPoly
  simp only []
  apply Finset.sum_congr rfl
  intro m hm
  have hm1 : m < x.length := by
    have := Finset.mem_range.mp hm
    omega
  rw [divided_differences_eq_ddRec x y 0 m (by omega)]
  simp

/-- Distinct list entries at distinct positions. -/
theorem nodup_getD_ne (x : List K) (hx : x.Nodup) :
    ∀ a b : Nat, a < b → b < x.length → x.getD a 0 ≠ x.getD b 0 := by
  intro a b hab hb heq
  have ha : a < x.length := by omega
  rw [List.getD_eq_getElem x 0 ha, List.getD_eq_getElem x 0 hb] at heq
  have := (List.Nodup.getElem_inj_iff hx).mp heq
  omega

/-- Entries of a strictly increasing list, read by position. -/
theorem sorted_getD_lt (x : List K) (hx : x.Sorted (· < ·)) :
    ∀ a b : Nat, a < b → b < x.length → x.getD a 0 < x.getD b 0 := by
  intro a b hab hb
  have ha : a < x.length := by omega
  rw [List.getD_eq_getElem x 0 ha, List.getD_eq_getElem x 0 hb]
  exact (List.pairwise_iff_getElem.mp hx) a b ha hb hab

/-- C1: for pairwise distinct abscissae `xs` (of length at least one, since it
has the index `i`) and ordinates `ys` of the same length, the Newton polynomial
built from `divided_differences xs ys` and evaluated by `newton_interpolation` at
the node `xs[i]` returns `ys[i]`, in exact arithmetic. -/
theorem newton_interpolation_reproduces_nodes (xs ys : List K)
    (hlen : ys.length = xs.length) (hd : xs.Nodup) (i : Nat) (hi : i < xs.length) :
    newton_interpolation xs[i] xs (divided_differences xs ys) = ys[i] := by
  have hx : xs[i] = xs.getD i 0 := (List.getD_eq_getElem xs 0 hi).symm
  have hy : ys[i] = ys.getD i 0 := (List.getD_eq_getElem ys 0 (by omega)).symm
  rw [hx, hy, newton_interpolation_eq_newtonPoly (xs.getD i 0) xs ys (by omega)]
  have h := newtonPoly_node (fun k => xs.getD k 0) (fun k => ys.getD k 0) xs.length
    (nodup_getD_ne xs hd) (xs.length - 1) 0 i (by omega) (by omega)
  simpa using h

/-- C1 at the nodes `1, 2, 4` with ordinates `3, 5, 2`, third node. -/
theorem newton_interpolation_reproduces_nodes_witness :
    newton_interpolation ([1, 2, 4] : List ℚ)[2] [1, 2, 4]
        (divided_differences [1, 2, 4] [3, 5, 2])
      = ([3, 5, 2] : List ℚ)[2] :=
  newton_interpolation_reproduces_nodes [1, 2, 4] [3, 5, 2] rfl (by simp) 2 (by simp)

/-- C10: for `xs` of length `n ≥ 2` (strictly increasing or not) and every
`x_point > xs[n-1]`, `linear_spline` extrapolates along the final interval:
the result is `ys[n-2] + (ys[n-1] - ys[n-2]) * (x_point - xs[n-2]) / (xs[n-1] - xs[n-2])`. -/
theorem linear_spline_extrapolates_right (xs ys : List K) (x_point : K)
    (hn : 2 ≤ xs.length) (hx : x_point > xs.getD (xs.length - 1) 0) :
    linear_spline x_point xs ys
      = ys.getD (xs.length - 2) 0
        + (ys.getD (xs.length - 1) 0 - ys.getD (xs.length - 2) 0)
          * (x_point - xs.getD (xs.length - 2) 0)
          / (xs.getD (xs.length - 1) 0 - xs.getD (xs.length - 2) 0) := by
  unfold linear_spline
  simp only [if_pos hx]
  have e : xs.length - 2 + 1 = xs.length - 1 := by omega
  rw [e]

/-- C10 at the breakpoints `1, 2, 4` with ordinates `3, 5, 2` and the point `6`. -/
theorem linear_spline_extrapolates_right_witness :
    linear_spline (6 : ℚ) [1, 2, 4] [3, 5, 2]
      = ([3, 5, 2] : List ℚ).getD (([1, 2, 4] : List ℚ).length - 2) 0
        + (([3, 5, 2] : List ℚ).getD (([1, 2, 4] : List ℚ).length - 1) 0
            - ([3, 5, 2] : List ℚ).getD (([1, 2, 4] : List ℚ).length - 2) 0)
          * (6 - ([1, 2, 4] : List ℚ).getD (([1, 2, 4] : List ℚ).length - 2) 0)
          / (([1, 2, 4] : List ℚ).getD (([1, 2, 4] : List ℚ).length - 1) 0
            - ([1, 2, 4] : List ℚ).getD (([1, 2, 4] : List ℚ).length - 2) 0) :=
  linear_spline_extrapolates_right [1, 2, 4] [3, 5, 2] 6 (by simp)
    (by simp only [List.length_cons, List.length_nil, List.getD_cons_succ, List.getD_cons_zero]
        norm_num)

end InterpolationLemmas

section QuadratureLemmas

variable {K : Type} [LinearOrderedField K]

/-- The loop of `rectangle_method` as a finite sum. -/
theorem rectangle_fold (f : K → K) (a h : K) :
    ∀ (c : Nat) (s : K),
      (List.range c).foldl
        (fun (sum : K) (i : Nat) =>
          let x := a + ((i : K) + 0.5) * h
          sum + f x) s
        = s + ∑ i in range c, f (a + ((i : K) + 0.5) * h) := by
  intro c
  induction c with
  | zero => intro s; simp
  | succ c ih =>
    intro s
    rw [List.range_succ, List.foldl_append, ih, Finset.sum_range_succ]
    simp only [List.foldl_cons, List.foldl_nil]
    ring

/-- The loop of `trapezoidal_method` as a finite sum. -/
theorem trapezoidal_fold (f : K → K) (a h : K) :
    ∀ (c : Nat) (s : K),
      (List.range' 1 c).foldl
        (fun (sum : K) (i : Nat) =>
          let x := a + (i : K) * h
          sum + f x) s
        = s + ∑ i in range c, f (a + ((1 + i : Nat) : K) * h) := by
  intro c
  induction c with
  | zero => intro s; simp
  | succ c ih =>
    intro s
    rw [List.range'_1_concat, List.foldl_append, ih, Finset.sum_range_succ]
    simp only [List.foldl_cons, List.foldl_nil]
    ring

/-- The loop of `simpson_method` as a finite weighted sum. -/
theorem simpson_fold (f : K → K) (a h : K) :
    ∀ (c : Nat) (s : K),
      (List.range' 1 c).foldl
        (fun (sum : K) (i : Nat) =>
          let x := a + (i : K) * h
          if i % 2 = 0 then sum + 2 * f x else sum + 4 * f x) s
        = s + ∑ i in range c,
            (if (1 + i) % 2 = 0 then (2 : K) else 4) * f (a + ((1 + i : Nat) : K) * h) := by
  intro c
  induction c with
  | zero => intro s; simp
  | succ c ih =>
    intro s
    rw [List.range'_1_concat, List.foldl_append, ih, Finset.sum_range_succ]
    simp only [List.foldl_cons, List.foldl_nil]
    split_ifs <;> ring

/-- The loop of `three_eights_method` as a finite weighted sum. -/
theorem three_eights_fold (f : K → K) (a h : K) :
    ∀ (c : Nat) (s : K),
      (List.range' 1 c).foldl
        (fun (sum : K) (i : Nat) =>
          let x := a + (i : K) * h
          if i % 3 = 0 then sum + 2 * f x else sum + 3 * f x) s
        = s + ∑ i in range c,
            (if (1 + i) % 3 = 0 then (2 : K) else 3) * f (a + ((1 + i : Nat) : K) * h) := by
  intro c
  induction c with
  | zero => intro s; simp
  | succ c ih =>
    intro s
    rw [List.range'_1_concat, List.foldl_append, ih, Finset.sum_range_succ]
    simp only [List.foldl_cons, List.foldl_nil]
    split_ifs <;> ring

/-- The loop of the Gauss rules as a finite sum. -/
theorem gauss_fold (nodes weights : List K) (f : K → K) (shift scale : K) :
    ∀ (c : Nat) (s : K),
      (List.range c).foldl
        (fun (sum : K) (i : Nat) =>
          let x := shift + scale * nodes.getD i 0
          sum + weights.getD i 0 * f x) s
        = s + ∑ i in range c, weights.getD i 0 * f (shift + scale * nodes.getD i 0) := by
  intro c
  induction c with
  | zero => intro s; simp
  | succ c ih =>
    intro s
    rw [List.range_succ, List.foldl_append, ih, Finset.sum_range_succ]
    simp only [List.foldl_cons, List.foldl_nil]
    ring

/-- `rectangle_method` as a finite sum. -/
theorem rectangle_method_eq_sum (f : K → K) (a b : K) (n : Nat) :
    rectangle_method f a b n
      = (∑ i in range n, f (a + ((i : K) + 0.5) * ((b - a) / (n : K)))) * ((b - a) / (n : K)) := by
  unfold rectangle_method
  simp only []
  rw [rectangle_fold, zero_add]

/-- `trapezoidal_method` as a finite sum. -/
theorem trapezoidal_method_eq_sum (f : K → K) (a b : K) (n : Nat) :
    trapezoidal_method f a b n
      = (0.5 * (f a + f b)
          + ∑ i in range (n - 1), f (a + ((1 + i : Nat) : K) * ((b - a) / (n : K))))
        * ((b - a) / (n : K)) := by
  unfold trapezoidal_method
  simp only []
  rw [trapezoidal_fold]

/-- `simpson_method` as a finite weighted sum, for an even `n`. -/
theorem simpson_method_eq_sum (f : K → K) (a b : K) (n : Nat) (hn : n % 2 = 0) :
    simpson_method f a b n
      = (f a + f b
          + ∑ i in range (n - 1),
              (if (1 + i) % 2 = 0 then (2 : K) else 4)
                * f (a + ((1 + i : Nat) : K) * ((b - a) / (n : K))))
        * ((b - a) / (n : K)) / 3 := by
  unfold simpson_method
  have hpar : ¬ n % 2 ≠ 0 := by omega
  simp only [if_neg hpar]
  rw [simpson_fold]

/-- `three_eights_method` as a finite weighted sum, for `n` a multiple of three. -/
theorem three_eights_method_eq_sum (f : K → K) (a b : K) (n : Nat) (hn : n % 3 = 0) :
    three_eights_method f a b n
      = (f a + f b
          + ∑ i in range (n - 1),
              (if (1 + i) % 3 = 0 then (2 : K) else 3)
                * f (a + ((1 + i : Nat) : K) * ((b - a) / (n : K))))
        * ((b - a) / (n : K)) * 3 / 8 := by
  unfold three_eights_method
  have hpar : ¬ n % 3 ≠ 0 := by omega
  simp only [if_neg hpar]
  rw [three_eights_fold]

/-- A Gauss rule as a finite weighted sum. -/
theorem gauss_rule_eq_sum (nodes weights : List K) (count : Nat) (f : K → K) (a b : K) :
    gauss_rule nodes weights count f a b
      = (∑ i in range count,
          weights.getD i 0 * f ((a + b) / 2 + (b - a) / 2 * nodes.getD i 0)) * ((b - a) / 2) := by
  unfold gauss_rule
  simp only []
  rw [gauss_fold, zero_add]

/-- The interior Simpson weights `4, 2, 4, ..., 4` over `2m + 1` points add up to
`4 + 6m`. -/
theorem simpson_weights_sum (m : Nat) :
    ∑ i in range (2 * m + 1), (if (1 + i) % 2 = 0 then (2 : K) else 4) = 4 + 6 * (m : K) := by
  induction m with
  | zero => simp
  | succ m ih =>
    have e : 2 * (m + 1) + 1 = (2 * m + 1) + 1 + 1 := by omega
    rw [e, Finset.sum_range_succ, Finset.sum_range_succ, ih]
    have h1 : (1 + (2 * m + 1)) % 2 = 0 := by omega
    have h2 : ¬ (1 + (2 * m + 1 + 1)) % 2 = 0 := by omega
    rw [if_pos h1, if_neg h2]
    push_cast
    ring

/-- The interior 3/8 weights `3, 3, 2, ..., 3, 3` over `3m + 2` points add up to
`6 + 8m`. -/
theorem three_eights_weights_sum (m : Nat) :
    ∑ i in range (3 * m + 2), (if (1 + i) % 3 = 0 then (2 : K) else 3) = 6 + 8 * (m : K) := by
  induction m with
  | zero => simp [Finset.sum_range_succ]; norm_num
  | succ m ih =>
    have e : 3 * (m + 1) + 2 = (3 * m + 2) + 1 + 1 + 1 := by omega
    rw [e, Finset.sum_range_succ, Finset.sum_range_succ, Finset.sum_range_succ, ih]
    have h1 : (1 + (3 * m + 2)) % 3 = 0 := by omega
    have h2 : ¬ (1 + (3 * m + 2 + 1)) % 3 = 0 := by omega
    have h3 : ¬ (1 + (3 * m + 2 + 1 + 1)) % 3 = 0 := by omega
    rw [if_pos h1, if_neg h2, if_neg h3]
    push_cast
    ring

/-- `simpson_method` on a constant integrand, for an even count `2(m+1)`. -/
theorem simpson_const_even (c a b : K) (m : Nat) :
    simpson_method (fun _ => c) a b (2 * (m + 1)) = c * (b - a) := by
  rw [simpson_method_eq_sum _ a b _ (by omega)]
  have e : 2 * (m + 1) - 1 = 2 * m + 1 := by omega
  rw [e, ← Finset.sum_mul, simpson_weights_sum]
  have hne : ((2 * (m + 1) : Nat) : K) ≠ 0 := by
    exact_mod_cast (by omega : 2 * (m + 1) ≠ 0)
  push_cast at hne ⊢
  field_simp
  ring

/-- `three_eights_method` on a constant integrand, for a count `3(m+1)`. -/
theorem three_eights_const_mul3 (c a b : K) (m : Nat) :
    three_eights_method (fun _ => c) a b (3 * (m + 1)) = c * (b - a) := by
  rw [three_eights_method_eq_sum _ a b _ (by omega)]
  have e : 3 * (m + 1) - 1 = 3 * m + 2 := by omega
  rw [e, ← Finset.sum_mul, three_eights_weights_sum]
  have hne : ((3 * (m + 1) : Nat) : K) ≠ 0 := by
    exact_mod_cast (by omega : 3 * (m + 1) ≠ 0)
  push_cast at hne ⊢
  field_simp
  ring

/-- The adjustment of `simpson_method` does not change the result past the first
line: an odd `n` gives the value at `n + 1`. -/
theorem simpson_method_odd (f : K → K) (a b : K) (n : Nat) (hn : n % 2 ≠ 0) :
    simpson_method f a b n = simpson_method f a b (n + 1) := by
  unfold simpson_method
  have h2 : ¬ (n + 1) % 2 ≠ 0 := by omega
  simp only [if_pos hn, if_neg h2]

/-- The adjustment of `three_eights_method`: an `n` that is not a multiple of
three gives the value at `n + (3 - n % 3)`. -/
theorem three_eights_method_adjust (f : K → K) (a b : K) (n : Nat) (hn : n % 3 ≠ 0) :
    three_eights_method f a b n = three_eights_method f a b (n + (3 - n % 3)) := by
  unfold three_eights_method
  have h2 : ¬ (n + (3 - n % 3)) % 3 ≠ 0 := by omega
  simp only [if_pos hn, if_neg h2]

/-- C3: with the integrand a parameter, on a constant integrand `f(x) = c` each
of the seven rules returns exactly `c * (b - a)`, for every `a`, `b` and every
subdivision count `n ≥ 1` (whatever the library `sqrt` returns), in exact
arithmetic. -/
theorem quadrature_constant (sqrt : K → K) (c a b : K) (n : Nat) (hn : 1 ≤ n) :
    rectangle_method (fun _ => c) a b n = c * (b - a)
      ∧ trapezoidal_method (fun _ => c) a b n = c * (b - a)
      ∧ simpson_method (fun _ => c) a b n = c * (b - a)
      ∧ three_eights_method (fun _ => c) a b n = c * (b - a)
      ∧ gauss_2_nodes sqrt (fun _ => c) a b = c * (b - a)
      ∧ gauss_3_nodes sqrt (fun _ => c) a b = c * (b - a)
      ∧ gauss_4_nodes sqrt (fun _ => c) a b = c * (b - a) := by
  have hne : (n : K) ≠ 0 := by exact_mod_cast (by omega : n ≠ 0)
  refine ⟨?_, ?_, ?_, ?_, ?_, ?_, ?_⟩
  · rw [rectangle_method_eq_sum]
    simp only [Finset.sum_const, Finset.card_range, nsmul_eq_mul]
    field_simp
    ring
  · rw [trapezoidal_method_eq_sum]
    simp only [Finset.sum_const, Finset.card_range, nsmul_eq_mul]
    rw [Nat.cast_sub hn]
    field_simp
    ring
  · rcases Nat.even_or_odd n with he | ho
    · obtain ⟨k, hk⟩ := he
      have : n = 2 * ((k - 1) + 1) := by omega
      rw [this]
      exact simpson_const_even c a b (k - 1)
    · obtain ⟨k, hk⟩ := ho
      rw [simpson_method_odd _ a b n (by omega)]
      have : n + 1 = 2 * (k + 1) := by omega
      rw [this]
      exact simpson_const_even c a b k
  · by_cases h3 : n % 3 = 0
    · have : n = 3 * ((n / 3 - 1) + 1) := by omega
      rw [this]
      exact three_eights_const_mul3 c a b (n / 3 - 1)
    · rw [three_eights_method_adjust _ a b n h3]
      have : n + (3 - n % 3) = 3 * (n / 3 + 1) := by omega
      rw [this]
      exact three_eights_const_mul3 c a b (n / 3)
  · unfold gauss_2_nodes
    rw [gauss_rule_eq_sum]
    simp [Finset.sum_range_succ]
    ring
  · unfold gauss_3_nodes
    rw [gauss_rule_eq_sum]
    simp [Finset.sum_range_succ]
    ring
  · unfold gauss_4_nodes
    rw [gauss_rule_eq_sum]
    simp [Finset.sum_range_succ]
    ring

/-- C3 for the constant `7` over `[1, 3]` with five subdivisions. -/
theorem quadrature_constant_witness :
    rectangle_method (fun _ => (7 : ℚ)) 1 3 5 = 7 * (3 - 1)
      ∧ trapezoidal_method (fun _ => (7 : ℚ)) 1 3 5 = 7 * (3 - 1)
      ∧ simpson_method (fun _ => (7 : ℚ)) 1 3 5 = 7 * (3 - 1)
      ∧ three_eights_method (fun _ => (7 : ℚ)) 1 3 5 = 7 * (3 - 1)
      ∧ gauss_2_nodes (fun x => x) (fun _ => (7 : ℚ)) 1 3 = 7 * (3 - 1)
      ∧ gauss_3_nodes (fun x => x) (fun _ => (7 : ℚ)) 1 3 = 7 * (3 - 1)
      ∧ gauss_4_nodes (fun x => x) (fun _ => (7 : ℚ)) 1 3 = 7 * (3 - 1) :=
  quadrature_constant (fun x => x) 7 1 3 5 (by decide)

end QuadratureLemmas

section SeriesLemmas

variable {K : Type} [LinearOrderedField K]

/-- The recurrence of the `sin` loop produces the next term of the series. -/
theorem sinTerm_succ (t : K) (j : Nat) :
    -sinTerm t j * t * t / (((2 * j + 3 : Int) * ((2 * j + 3 : Int) - 1) : Int) : K)
      = sinTerm t (j + 1) := by
  unfold sinTerm
  have hf : (Nat.factorial (2 * (j + 1) + 1) : K)
      = (2 * (j : K) + 3) * ((2 * (j : K) + 2) * (Nat.factorial (2 * j + 1) : K)) := by
    have hnat : Nat.factorial (2 * (j + 1) + 1)
        = (2 * j + 3) * ((2 * j + 2) * Nat.factorial (2 * j + 1)) := by
      have e1 : 2 * (j + 1) + 1 = (2 * j + 2) + 1 := by omega
      have e2 : 2 * j + 2 = (2 * j + 1) + 1 := by omega
      rw [e1, Nat.factorial_succ, e2, Nat.factorial_succ]
    rw [hnat]
    push_cast
    ring
  have hp : t ^ (2 * (j + 1) + 1) = t ^ (2 * j + 1) * t * t := by
    have e1 : 2 * (j + 1) + 1 = (2 * j + 1) + 1 + 1 := by omega
    rw [e1, pow_succ, pow_succ]
  rw [hf, hp, pow_succ]
  have h1 : (Nat.factorial (2 * j + 1) : K) ≠ 0 := by exact_mod_cast Nat.factorial_ne_zero _
  have h2 : (2 * (j : K) + 2) ≠ 0 := by positivity
  have h3 : (2 * (j : K) + 3) ≠ 0 := by positivity
  push_cast
  have h4 : (2 * (j : K) + 3 - 1) ≠ 0 := by
    have : (2 * (j : K) + 3 - 1) = 2 * (j : K) + 2 := by ring
    rw [this]
    exact h2
  generalize (Nat.factorial (2 * j + 1) : K) = F at h1 ⊢
  field_simp
  ring

/-- The `sin` loop, entered with `j + 1` terms summed, ends with all the terms of
odd index up to `N` summed, as soon as the iteration bound is large enough. -/
theorem maclaurin_sin_loop_eq (t : K) (N : Nat) :
    ∀ (fuel j : Nat), j + 1 ≤ (N + 1) / 2 → (N + 1) / 2 ≤ fuel + j + 1 →
      maclaurin_sin_loop t (N : Int) fuel (2 * j + 3 : Int) (sinTerm t j)
          (∑ i in range (j + 1), sinTerm t i)
        = ∑ i in range ((N + 1) / 2), sinTerm t i := by
  intro fuel
  induction fuel with
  | zero =>
    intro j h1 h2
    have e : (N + 1) / 2 = j + 1 := by omega
    simp only [maclaurin_sin_loop, e]
  | succ fuel ih =>
    intro j h1 h2
    simp only [maclaurin_sin_loop]
    by_cases hc : (2 * j + 3 : Int) ≤ (N : Int)
    · rw [if_pos hc, sinTerm_succ]
      have hN : 2 * j + 3 ≤ N := by exact_mod_cast hc
      have e : (2 * (j : Int) + 3 + 2) = (2 * ((j + 1 : Nat) : Int) + 3) := by push_cast; ring
      rw [e, ← Finset.sum_range_succ (fun i => sinTerm t i) (j + 1)]
      exact ih (j + 1) (by omega) (by omega)
    · rw [if_neg hc]
      have hN : ¬ 2 * j + 3 ≤ N := by
        intro h
        exact hc (by exact_mod_cast h)
      have e : (N + 1) / 2 = j + 1 := by omega
      rw [e]

/-- The `exp` loop after `c` iterations: the current term and the partial sum. -/
theorem maclaurin_exp_fold (t : K) :
    ∀ c : Nat,
      (List.range' 1 c).foldl
        (fun (s : K × K) (n : Nat) =>
          let term := s.1 * t / (n : K)
          (term, s.2 + term))
        (1, 1)
        = (t ^ c / (Nat.factorial c : K), ∑ k in range (c + 1), t ^ k / (Nat.factorial k : K)) := by
  intro c
  induction c with
  | zero => simp
  | succ c ih =>
    rw [List.range'_1_concat, List.foldl_append, ih]
    simp only [List.foldl_cons, List.foldl_nil]
    have h1 : (Nat.factorial c : K) ≠ 0 := by exact_mod_cast Nat.factorial_ne_zero _
    have h2 : ((1 + c : Nat) : K) ≠ 0 := by exact_mod_cast (by omega : 1 + c ≠ 0)
    have et : t ^ c / (Nat.factorial c : K) * t / ((1 + c : Nat) : K)
        = t ^ (c + 1) / (Nat.factorial (c + 1) : K) := by
      rw [Nat.factorial_succ]
      push_cast at h2 ⊢
      have h3 : ((c : K) + 1) ≠ 0 := by rw [add_comm]; exact h2
      field_simp
      ring
    rw [et, Finset.sum_range_succ _ (c + 1)]

/-- The `sin` branch of `maclaurin_sum` as a sum of series terms. -/
theorem maclaurin_sum_sin_eq (t : K) (N : Nat) (hN : 1 ≤ N) :
    maclaurin_sum "sin" t (N : Int) = ∑ i in range ((N + 1) / 2), sinTerm t i := by
  unfold maclaurin_sum
  rw [if_pos rfl]
  have h := maclaurin_sin_loop_eq t N N 0 (by omega) (by omega)
  simp only [Int.toNat_ofNat]
  have e0 : sinTerm t 0 = t := by simp [sinTerm]
  rw [Finset.sum_range_one, e0] at h
  simpa using h

/-- The `exp` branch of `maclaurin_sum` as a sum of series terms. -/
theorem maclaurin_sum_exp_eq (t : K) (N : Nat) :
    maclaurin_sum "exp" t (N : Int) = ∑ k in range (N + 1), t ^ k / (Nat.factorial k : K) := by
  unfold maclaurin_sum
  rw [if_neg (by decide)]
  simp only [Int.toNat_ofNat]
  rw [maclaurin_exp_fold]

end SeriesLemmas

section RealLemmas

variable {K : Type} [LinearOrderedField K]

theorem hasDerivAt_sinTerm (x : ℝ) (j : Nat) :
    HasDerivAt (fun y : ℝ => sinTerm y j) (cosTerm x j) x := by
  unfold sinTerm cosTerm
  have h := ((hasDerivAt_pow (2 * j + 1) x).const_mul ((-1 : ℝ) ^ j)).div_const
    (Nat.factorial (2 * j + 1) : ℝ)
  convert h using 1
  rw [Nat.factorial_succ]
  have h1 : (Nat.factorial (2 * j) : ℝ) ≠ 0 := by exact_mod_cast Nat.factorial_ne_zero _
  have h2 : ((2 * j + 1 : Nat) : ℝ) ≠ 0 := by exact_mod_cast (by omega : 2 * j + 1 ≠ 0)
  simp only [Nat.add_sub_cancel]
  push_cast at h2 ⊢
  field_simp
  ring

theorem hasDerivAt_cosTerm_succ (x : ℝ) (j : Nat) :
    HasDerivAt (fun y : ℝ => cosTerm y (j + 1)) (-sinTerm x j) x := by
  unfold sinTerm cosTerm
  have h := ((hasDerivAt_pow (2 * (j + 1)) x).const_mul ((-1 : ℝ) ^ (j + 1))).div_const
    (Nat.factorial (2 * (j + 1)) : ℝ)
  convert h using 1
  have hf : (Nat.factorial (2 * (j + 1)) : ℝ)
      = (2 * (j : ℝ) + 2) * (Nat.factorial (2 * j + 1) : ℝ) := by
    have hnat : Nat.factorial (2 * (j + 1)) = (2 * j + 2) * Nat.factorial (2 * j + 1) := by
      have e : 2 * (j + 1) = (2 * j + 1) + 1 := by omega
      rw [e, Nat.factorial_succ]
    rw [hnat]
    push_cast
    ring
  have e1 : 2 * (j + 1) - 1 = 2 * j + 1 := by omega
  rw [hf, e1, pow_succ (-1 : ℝ) j]
  have h1 : (Nat.factorial (2 * j + 1) : ℝ) ≠ 0 := by exact_mod_cast Nat.factorial_ne_zero _
  have h2 : (2 * (j : ℝ) + 2) ≠ 0 := by positivity
  push_cast
  generalize (Nat.factorial (2 * j + 1) : ℝ) = F at h1 ⊢
  field_simp
  ring

theorem hasDerivAt_sinPoly (x : ℝ) (m : Nat) :
    HasDerivAt (fun y : ℝ => ∑ i in range m, sinTerm y i) (∑ i in range m, cosTerm x i) x :=
  HasDerivAt.sum (fun i _ => hasDerivAt_sinTerm x i)

theorem hasDerivAt_cosPoly (x : ℝ) (m : Nat) :
    HasDerivAt (fun y : ℝ => ∑ i in range (m + 1), cosTerm y i)
      (-∑ i in range m, sinTerm x i) x := by
  have h0 : HasDerivAt (fun y : ℝ => cosTerm y 0) 0 x := by
    have : (fun y : ℝ => cosTerm y 0) = fun _ => (1 : ℝ) := by
      funext y
      simp [cosTerm]
    rw [this]
    exact hasDerivAt_const x 1
  have h1 : HasDerivAt (fun y : ℝ => ∑ i in range m, cosTerm y (i + 1))
      (∑ i in range m, -sinTerm x i) x :=
    HasDerivAt.sum (fun i _ => hasDerivAt_cosTerm_succ x i)
  have h := h1.add h0
  have e : (fun y : ℝ => ∑ i in range (m + 1), cosTerm y i)
      = fun y : ℝ => ∑ i in range m, cosTerm y (i + 1) + cosTerm y 0 := by
    funext y
    rw [Finset.sum_range_succ']
  rw [e]
  convert h using 1
  rw [Finset.sum_neg_distrib, add_zero]

/-- A function vanishing at `0` with a non-negative derivative on `[0, ∞)` is
non-negative there. -/
theorem nonneg_of_deriv_nonneg (g g' : ℝ → ℝ) (hd : ∀ x, HasDerivAt g (g' x) x)
    (h0 : g 0 = 0) (hpos : ∀ x, 0 ≤ x → 0 ≤ g' x) : ∀ x, 0 ≤ x → 0 ≤ g x := by
  intro x hx
  have hmono : MonotoneOn g (Set.Ici 0) := by
    apply monotoneOn_of_deriv_nonneg (convex_Ici 0)
    · exact (continuous_iff_continuousAt.mpr (fun y => (hd y).continuousAt)).continuousOn
    · exact fun y _ => (hd y).differentiableAt.differentiableWithinAt
    · intro y hy
      rw [interior_Ici] at hy
      rw [(hd y).deriv]
      exact hpos y (le_of_lt hy)
  have := hmono (Set.mem_Ici.mpr (le_refl 0)) (Set.mem_Ici.mpr hx) hx
  rw [h0] at this
  exact this

/-- The partial sums of the sine and cosine series bound the functions
alternately from above and from below on `[0, ∞)`. -/
theorem taylor_alternating (n : Nat) :
    ∀ x : ℝ, 0 ≤ x →
      0 ≤ (-1 : ℝ) ^ (n + 1) * (Real.cos x - ∑ i in range (n + 1), cosTerm x i)
      ∧ 0 ≤ (-1 : ℝ) ^ (n + 1) * (Real.sin x - ∑ i in range (n + 1), sinTerm x i) := by
  induction n with
  | zero =>
    intro x hx
    constructor
    · simp [cosTerm]
      exact Real.cos_le_one x
    · simp [sinTerm]
      exact Real.sin_le hx
  | succ n ih =>
    have hcos : ∀ x : ℝ, 0 ≤ x →
        0 ≤ (-1 : ℝ) ^ (n + 1 + 1) * (Real.cos x - ∑ i in range (n + 1 + 1), cosTerm x i) := by
      apply nonneg_of_deriv_nonneg
        (fun x => (-1 : ℝ) ^ (n + 1 + 1) * (Real.cos x - ∑ i in range (n + 1 + 1), cosTerm x i))
        (fun x => (-1 : ℝ) ^ (n + 1) * (Real.sin x - ∑ i in range (n + 1), sinTerm x i))
      · intro x
        have h := ((Real.hasDerivAt_cos x).sub (hasDerivAt_cosPoly x (n + 1))).const_mul
          ((-1 : ℝ) ^ (n + 1 + 1))
        convert h using 1
        rw [pow_succ (-1 : ℝ) (n + 1)]
        ring
      · have hz : ∑ i in range (n + 1 + 1), cosTerm (0 : ℝ) i = 1 := by
          rw [Finset.sum_range_succ']
          simp [cosTerm]
        simp only [Real.cos_zero, hz, sub_self, mul_zero]
      · exact fun x hx => (ih x hx).2
    intro x hx
    refine ⟨hcos x hx, ?_⟩
    revert x
    apply nonneg_of_deriv_nonneg
      (fun x => (-1 : ℝ) ^ (n + 1 + 1) * (Real.sin x - ∑ i in range (n + 1 + 1), sinTerm x i))
      (fun x => (-1 : ℝ) ^ (n + 1 + 1) * (Real.cos x - ∑ i in range (n + 1 + 1), cosTerm x i))
    · intro x
      exact ((Real.hasDerivAt_sin x).sub (hasDerivAt_sinPoly x (n + 1 + 1))).const_mul
        ((-1 : ℝ) ^ (n + 1 + 1))
    · have hz : ∑ i in range (n + 1 + 1), sinTerm (0 : ℝ) i = 0 := by
        apply Finset.sum_eq_zero
        intro i _
        simp [sinTerm]
      simp only [Real.sin_zero, hz, sub_self, mul_zero]
    · exact hcos


/-- Lower bound of the sine by a partial sum with an even number of terms. -/
theorem sinPoly_even_le_sin (k : Nat) (x : ℝ) (hx : 0 ≤ x) :
    ∑ i in range (2 * (k + 1)), sinTerm x i ≤ Real.sin x := by
  have h := (taylor_alternating (2 * k + 1) x hx).2
  have e : 2 * k + 1 + 1 = 2 * (k + 1) := by omega
  rw [e, pow_mul] at h
  simpa using h

/-- Upper bound of the sine by a partial sum with an odd number of terms. -/
theorem sin_le_sinPoly_odd (k : Nat) (x : ℝ) (hx : 0 ≤ x) :
    Real.sin x ≤ ∑ i in range (2 * k + 1), sinTerm x i := by
  have h := (taylor_alternating (2 * k) x hx).2
  rw [pow_succ, pow_mul] at h
  simp only [even_two, Even.neg_pow, one_pow, one_mul, neg_mul, Left.nonneg_neg_iff,
    sub_nonpos] at h
  exact h

/-- Lower bound of the cosine by a partial sum with an even number of terms. -/
theorem cosPoly_even_le_cos (k : Nat) (x : ℝ) (hx : 0 ≤ x) :
    ∑ i in range (2 * (k + 1)), cosTerm x i ≤ Real.cos x := by
  have h := (taylor_alternating (2 * k + 1) x hx).1
  have e : 2 * k + 1 + 1 = 2 * (k + 1) := by omega
  rw [e, pow_mul] at h
  simpa using h

/-- Upper bound of the cosine by a partial sum with an odd number of terms. -/
theorem cos_le_cosPoly_odd (k : Nat) (x : ℝ) (hx : 0 ≤ x) :
    Real.cos x ≤ ∑ i in range (2 * k + 1), cosTerm x i := by
  have h := (taylor_alternating (2 * k) x hx).1
  rw [pow_succ, pow_mul] at h
  simp only [even_two, Even.neg_pow, one_pow, one_mul, neg_mul, Left.nonneg_neg_iff,
    sub_nonpos] at h
  exact h

theorem sinTerm_neg (x : K) (j : Nat) : sinTerm (-x) j = -sinTerm x j := by
  unfold sinTerm
  rw [Odd.neg_pow ⟨j, rfl⟩]
  ring

/-- The `fmod` of exact arithmetic differs from its argument by an integer
multiple of the modulus and is smaller than the modulus in absolute value. -/
theorem fmod_spec (t m : ℝ) (hm : 0 < m) :
    ∃ k : Int, fmod t m = t - m * (k : ℝ) ∧ |fmod t m| < m := by
  unfold fmod
  by_cases hq : 0 ≤ t / m
  · refine ⟨⌊t / m⌋, by rw [if_pos hq], ?_⟩
    rw [if_pos hq]
    have h1 : (⌊t / m⌋ : ℝ) ≤ t / m := Int.floor_le _
    have h2 : t / m < ⌊t / m⌋ + 1 := Int.lt_floor_add_one _
    have e : t = m * (t / m) := by field_simp
    rw [abs_lt]
    constructor
    · nlinarith
    · nlinarith
  · refine ⟨⌈t / m⌉, by rw [if_neg hq], ?_⟩
    rw [if_neg hq]
    have h1 : t / m ≤ (⌈t / m⌉ : ℝ) := Int.le_ceil _
    have h2 : (⌈t / m⌉ : ℝ) < t / m + 1 := Int.ceil_lt_add_one _
    have e : t = m * (t / m) := by field_simp
    rw [abs_lt]
    constructor
    · nlinarith
    · nlinarith

/-- With `n_terms = 15` the `sin` branch sums the eight terms up to `t^15 / 15!`. -/
theorem maclaurin_sum_sin_15 (r : ℝ) :
    maclaurin_sum "sin" r 15 = ∑ i in range 8, sinTerm r i := by
  have h := maclaurin_sum_sin_eq r 15 (by norm_num)
  simpa using h

/-- The error of the eight-term sine sum is at most the next term. -/
theorem sin_series_15_error (r : ℝ) :
    |∑ i in range 8, sinTerm r i - Real.sin r| ≤ |r| ^ 17 / (Nat.factorial 17 : ℝ) := by
  have key : ∀ x : ℝ, 0 ≤ x →
      |∑ i in range 8, sinTerm x i - Real.sin x| ≤ x ^ 17 / (Nat.factorial 17 : ℝ) := by
    intro x hx
    have hlo := sinPoly_even_le_sin 3 x hx
    have hhi := sin_le_sinPoly_odd 4 x hx
    have e8 : 2 * (3 + 1) = 8 := by norm_num
    have e9 : 2 * 4 + 1 = 8 + 1 := by norm_num
    rw [e8] at hlo
    rw [e9, Finset.sum_range_succ] at hhi
    have hterm : sinTerm x 8 = x ^ 17 / (Nat.factorial 17 : ℝ) := by
      unfold sinTerm
      norm_num
    rw [hterm] at hhi
    rw [abs_le]
    constructor <;> linarith [div_nonneg (pow_nonneg hx 17)
      (Nat.cast_nonneg (α := ℝ) (Nat.factorial 17))]
  rcases le_total 0 r with hr | hr
  · rw [abs_of_nonneg hr]
    exact key r hr
  · have h := key (-r) (by linarith)
    have e : ∑ i in range 8, sinTerm (-r) i = -∑ i in range 8, sinTerm r i := by
      rw [← Finset.sum_neg_distrib]
      exact Finset.sum_congr rfl (fun i _ => sinTerm_neg r i)
    rw [e, Real.sin_neg] at h
    rw [abs_of_nonpos hr]
    have e2 : |(-∑ i in range 8, sinTerm r i) - -Real.sin r|
        = |∑ i in range 8, sinTerm r i - Real.sin r| := by
      rw [← abs_neg]
      congr 1
      ring
    rw [e2] at h
    exact h

/-- The sine is 1-Lipschitz. -/
theorem abs_sin_sub_sin_le (x y : ℝ) : |Real.sin x - Real.sin y| ≤ |x - y| := by
  rw [Real.sin_sub_sin, abs_mul, abs_mul]
  have h1 : |Real.sin ((x - y) / 2)| ≤ |(x - y) / 2| := Real.abs_sin_le_abs
  have h2 : |Real.cos ((x + y) / 2)| ≤ 1 := Real.abs_cos_le_one _
  have h3 : |(x - y) / 2| = |x - y| / 2 := by
    rw [abs_div]
    norm_num
  have h4 : (0 : ℝ) ≤ |Real.sin ((x - y) / 2)| := abs_nonneg _
  have h5 : (0 : ℝ) ≤ |Real.cos ((x + y) / 2)| := abs_nonneg _
  have h6 : |(2 : ℝ)| = 2 := by norm_num
  rw [h6]
  nlinarith

/-- The argument that `improved_sin` passes to the series, for any positive
value of the constant `M_PI`: it differs from `t` by an integer multiple of
`2 * M_PI` and lies in `[-M_PI, M_PI]`. -/
theorem improved_sin_reduction_const (M_PI t : ℝ) (hM : 0 < M_PI) :
    ∃ (r : ℝ) (k : Int), improved_sin M_PI t = maclaurin_sum "sin" r 15
      ∧ r = t - 2 * M_PI * (k : ℝ) ∧ |r| ≤ M_PI := by
  obtain ⟨k, hk, hlt⟩ := fmod_spec t (2 * M_PI) (by positivity)
  rw [abs_lt] at hlt
  unfold improved_sin
  simp only []
  by_cases h1 : fmod t (2 * M_PI) > M_PI
  · refine ⟨fmod t (2 * M_PI) - 2 * M_PI, k + 1, by rw [if_pos h1], ?_, ?_⟩
    · rw [hk]
      push_cast
      ring
    · rw [abs_le]
      constructor <;> linarith [hlt.1, hlt.2]
  · by_cases h2 : fmod t (2 * M_PI) < -M_PI
    · refine ⟨fmod t (2 * M_PI) + 2 * M_PI, k - 1, by rw [if_neg h1, if_pos h2], ?_, ?_⟩
      · rw [hk]
        push_cast
        ring
      · rw [abs_le]
        constructor <;> linarith [hlt.1, hlt.2]
    · refine ⟨fmod t (2 * M_PI), k, by rw [if_neg h1, if_neg h2], ?_, ?_⟩
      · rw [hk]
      · rw [abs_le]
        constructor <;> linarith

/-- C4 (amended): for every real `t` with `-50 ≤ t ≤ 50` the range-reduced sine
`improved_sin`, which reduces `t` modulo `2 * M_PI` into `[-M_PI, M_PI]` and calls
`maclaurin_sum "sin"` with `n_terms = 15`, is within `1e-6` of the true sine.
The constant `M_PI` is any number within `1e-15` of `π`: `π` itself, or the
`double` nearest to it that the code uses. -/
theorem improved_sin_error (M_PI t : ℝ) (hM : |M_PI - Real.pi| ≤ 1e-15) (ht : |t| ≤ 50) :
    |improved_sin M_PI t - Real.sin t| < 1e-6 := by
  have hlo := Real.pi_gt_d4
  have hhi := Real.pi_lt_d4
  rw [abs_le] at hM
  have hM3 : (3 : ℝ) < M_PI := by
    norm_num at hM hlo ⊢
    linarith [hM.1]
  have hMu : M_PI ≤ 3.1416 := by
    have := Real.pi_lt_d6
    norm_num at hM this ⊢
    linarith [hM.2]
  obtain ⟨r, k, hr, hrk, habs⟩ := improved_sin_reduction_const M_PI t (by linarith)
  rw [hr, maclaurin_sum_sin_15]
  -- the multiple `k` is at most `9` in absolute value
  have hk9 : |(k : ℝ)| ≤ 9 := by
    by_contra hcon
    rw [not_le] at hcon
    have h1 : 2 * M_PI * (k : ℝ) = t - r := by linarith
    have h2 : |2 * M_PI * (k : ℝ)| ≤ 50 + M_PI := by
      rw [h1]
      calc |t - r| ≤ |t| + |r| := abs_sub _ _
        _ ≤ 50 + M_PI := add_le_add ht habs
    rw [abs_mul, abs_of_pos (by linarith : (0 : ℝ) < 2 * M_PI)] at h2
    nlinarith
  -- the sine of `t` against the sine of the reduced argument
  have hsin : Real.sin t = Real.sin (r + 2 * (M_PI - Real.pi) * (k : ℝ)) := by
    have h := Real.sin_add_int_mul_two_pi (r + 2 * (M_PI - Real.pi) * (k : ℝ)) k
    rw [← h]
    congr 1
    rw [hrk]
    ring
  have hshift : |Real.sin r - Real.sin t| ≤ 1.8e-14 := by
    rw [hsin]
    have h := abs_sin_sub_sin_le r (r + 2 * (M_PI - Real.pi) * (k : ℝ))
    have e : r - (r + 2 * (M_PI - Real.pi) * (k : ℝ)) = -(2 * (M_PI - Real.pi) * (k : ℝ)) := by
      ring
    rw [e, abs_neg, abs_mul, abs_mul, abs_of_pos (by norm_num : (0 : ℝ) < 2)] at h
    have hd : |M_PI - Real.pi| ≤ 1e-15 := abs_le.mpr hM
    have hprod : |M_PI - Real.pi| * |(k : ℝ)| ≤ 1e-15 * 9 :=
      mul_le_mul hd hk9 (abs_nonneg _) (by norm_num)
    norm_num at hprod h ⊢
    linarith
  have h1 := sin_series_15_error r
  have h2 : |r| ^ 17 ≤ (3.1416 : ℝ) ^ 17 :=
    pow_le_pow_left₀ (abs_nonneg r) (le_trans habs hMu) 17
  have hf : (0 : ℝ) < (Nat.factorial 17 : ℝ) := by exact_mod_cast Nat.factorial_pos 17
  have h4 : |r| ^ 17 / (Nat.factorial 17 : ℝ) ≤ (3.1416 : ℝ) ^ 17 / (Nat.factorial 17 : ℝ) :=
    div_le_div_of_nonneg_right h2 (le_of_lt hf)
  have h5 : (3.1416 : ℝ) ^ 17 / (Nat.factorial 17 : ℝ) < 9e-7 := by
    norm_num [Nat.factorial]
  have htri : |∑ i in range 8, sinTerm r i - Real.sin t|
      ≤ |∑ i in range 8, sinTerm r i - Real.sin r| + |Real.sin r - Real.sin t| := by
    have e : ∑ i in range 8, sinTerm r i - Real.sin t
        = (∑ i in range 8, sinTerm r i - Real.sin r) + (Real.sin r - Real.sin t) := by ring
    rw [e]
    exact abs_add _ _
  norm_num at hshift h5 ⊢
  linarith

/-- C4 (amended) with `M_PI` the `double` nearest to `π`,
`884279719003555 / 2^48`, at `t = 50`. -/
theorem improved_sin_error_witness :
    |(884279719003555 / 281474976710656 : ℝ) - Real.pi| ≤ 1e-15 ∧ |(50 : ℝ)| ≤ 50
      ∧ |improved_sin (884279719003555 / 281474976710656 : ℝ) 50 - Real.sin 50| < 1e-6 :=
  have h1 : |(884279719003555 / 281474976710656 : ℝ) - Real.pi| ≤ 1e-15 := by
    have hlo := Real.pi_gt_d20
    have hhi := Real.pi_lt_d20
    rw [abs_le]
    constructor <;> norm_num at hlo hhi ⊢ <;> linarith
  have h2 : |(50 : ℝ)| ≤ 50 := by norm_num
  ⟨h1, h2, improved_sin_error _ 50 h1 h2⟩

/-- C4 fails as stated: at `t = 3`, inside `[-50, 50]`, the range-reduced sine
is not within `1e-9` of the true sine. -/
theorem improved_sin_error_counterexample :
    (-50 : ℝ) ≤ 3 ∧ (3 : ℝ) ≤ 50 ∧ ¬ |improved_sin Real.pi 3 - Real.sin 3| < 1e-9 := by
  refine ⟨by norm_num, by norm_num, ?_⟩
  have hpi3 := Real.pi_gt_three
  have hfm : fmod (3 : ℝ) (2 * Real.pi) = 3 := by
    unfold fmod
    have hq0 : (0 : ℝ) ≤ 3 / (2 * Real.pi) := by positivity
    have hq1 : (3 : ℝ) / (2 * Real.pi) < 1 := by
      rw [div_lt_one (by positivity)]
      linarith
    have hfl : ⌊(3 : ℝ) / (2 * Real.pi)⌋ = 0 := by
      rw [Int.floor_eq_iff]
      constructor
      · simpa using hq0
      · simpa using hq1
    rw [if_pos hq0, hfl]
    simp
  have hval : improved_sin Real.pi 3 = ∑ i in range 8, sinTerm (3 : ℝ) i := by
    unfold improved_sin
    simp only [hfm]
    rw [if_neg (by linarith), if_neg (by linarith), maclaurin_sum_sin_15]
  have hlo := sinPoly_even_le_sin 4 (3 : ℝ) (by norm_num)
  have e10 : 2 * (4 + 1) = 8 + 1 + 1 := by norm_num
  rw [e10, Finset.sum_range_succ, Finset.sum_range_succ] at hlo
  have hterms : sinTerm (3 : ℝ) 8 + sinTerm (3 : ℝ) 9 > 1e-9 := by
    unfold sinTerm
    norm_num [Nat.factorial]
  rw [hval, not_lt]
  have hneg : ∑ i in range 8, sinTerm (3 : ℝ) i - Real.sin 3 ≤ -1e-9 := by linarith
  rw [abs_of_nonpos (by linarith)]
  linarith

/-- C7: `find_optimal_n("sin", 0.5, 0.001)`, the call of
`analyze_and_save_results`, returns `3`; the search sequence is `1, 3, 5, ...`,
the sum for count `1` has absolute error above `1e-3` and the sum for count `3`
has absolute error at most `1e-3`, so `3` is the smallest count of the sequence
that meets the target. -/
theorem find_optimal_n_sin_half :
    find_optimal_n Real.sin Real.exp "sin" (0.5 : ℝ) 0.001 = 3
      ∧ |Real.sin 0.5 - maclaurin_sum "sin" (0.5 : ℝ) 1| > 0.001
      ∧ |Real.sin 0.5 - maclaurin_sum "sin" (0.5 : ℝ) 3| ≤ 0.001 := by
  have hm1 : maclaurin_sum "sin" (0.5 : ℝ) 1 = 0.5 := by
    have h := maclaurin_sum_sin_eq (0.5 : ℝ) 1 (by norm_num)
    simp only [Nat.cast_one] at h
    rw [h]
    norm_num [sinTerm]
  have hm3 : maclaurin_sum "sin" (0.5 : ℝ) 3 = 0.5 - 0.125 / 6 := by
    have h := maclaurin_sum_sin_eq (0.5 : ℝ) 3 (by norm_num)
    simp only [Nat.cast_ofNat] at h
    rw [h]
    norm_num [sinTerm, Finset.sum_range_succ, Nat.factorial]
  have hlo := sinPoly_even_le_sin 0 (0.5 : ℝ) (by norm_num)
  have hhi := sin_le_sinPoly_odd 1 (0.5 : ℝ) (by norm_num)
  norm_num [sinTerm, Finset.sum_range_succ, Nat.factorial] at hlo hhi
  have h1 : |Real.sin 0.5 - maclaurin_sum "sin" (0.5 : ℝ) 1| > 0.001 := by
    rw [hm1, abs_of_nonpos (by norm_num at hhi ⊢; linarith)]
    norm_num at hhi ⊢
    linarith
  have h3 : |Real.sin 0.5 - maclaurin_sum "sin" (0.5 : ℝ) 3| ≤ 0.001 := by
    rw [hm3, abs_of_nonneg (by norm_num at hlo ⊢; linarith)]
    norm_num at hlo hhi ⊢
    linarith
  refine ⟨?_, h1, h3⟩
  unfold find_optimal_n
  simp only [if_pos]
  have h50 : Int.toNat 50 = 48 + 1 + 1 := by decide
  rw [h50]
  simp only [find_optimal_n_loop]
  rw [if_pos ⟨by norm_num, by norm_num⟩, if_neg (not_le.mpr h1)]
  simp only [if_pos]
  have e13 : (1 : Int) + 2 = 3 := by norm_num
  rw [e13, if_pos ⟨h1, by norm_num⟩, if_pos h3]

/-- C8 at the failing input `("sin", 10, 1)`: the initial `error = 1.0` is not
above the target, the loop body never runs and `find_optimal_n` returns `1`,
below the cap `50`, although the absolute error of the sum for count `1`
exceeds the target. -/
theorem find_optimal_n_unchecked_return :
    find_optimal_n Real.sin Real.exp "sin" (10 : ℝ) 1 = 1
      ∧ (1 : Int) < 50
      ∧ ¬ |Real.sin 10 - maclaurin_sum "sin" (10 : ℝ) 1| ≤ 1 := by
  refine ⟨?_, by norm_num, ?_⟩
  · unfold find_optimal_n
    simp only [if_pos]
    have h50 : Int.toNat 50 = 49 + 1 := by decide
    rw [h50]
    simp only [find_optimal_n_loop]
    rw [if_neg]
    rintro ⟨h, _⟩
    exact lt_irrefl _ h
  · have hm1 : maclaurin_sum "sin" (10 : ℝ) 1 = 10 := by
      have h := maclaurin_sum_sin_eq (10 : ℝ) 1 (by norm_num)
      simp only [Nat.cast_one] at h
      rw [h]
      norm_num [sinTerm]
    rw [hm1, not_le]
    have h := Real.sin_le_one 10
    rw [abs_of_nonpos (by linarith)]
    linarith

/-- The halving loop of `improved_exp` on a non-negative argument below
`2^fuel` exits with the argument divided by `2^j`, at most `1`, where `2^j`
stays below twice the argument (or is `1`). -/
theorem improved_exp_reduce_spec :
    ∀ (fuel : Nat) (r : ℝ) (k : Nat), 0 ≤ r → r ≤ 2 ^ fuel →
      ∃ j : Nat, improved_exp_reduce fuel r k = some (r / 2 ^ j, k + j)
        ∧ 0 ≤ r / 2 ^ j ∧ r / 2 ^ j ≤ 1 ∧ ((2 : ℝ) ^ j ≤ 1 ∨ (2 : ℝ) ^ j < 2 * r) := by
  intro fuel
  induction fuel with
  | zero =>
    intro r k h0 h1
    refine ⟨0, ?_, by simpa using h0, by simpa using h1, Or.inl (by simp)⟩
    simp only [improved_exp_reduce]
    rw [if_neg (by simpa using h1)]
    simp
  | succ fuel ih =>
    intro r k h0 h1
    by_cases hr : r > 1
    · obtain ⟨j, hj, hj0, hj1, hj2⟩ := ih (r / 2) (k + 1) (by linarith) (by
        rw [pow_succ] at h1
        linarith)
      refine ⟨j + 1, ?_, ?_, ?_, ?_⟩
      · simp only [improved_exp_reduce]
        rw [if_pos hr, hj]
        have e1 : r / 2 / 2 ^ j = r / 2 ^ (j + 1) := by
          rw [pow_succ, div_div, mul_comm]
        have e2 : k + 1 + j = k + (j + 1) := by omega
        rw [e1, e2]
      · have e1 : r / 2 / 2 ^ j = r / 2 ^ (j + 1) := by
          rw [pow_succ, div_div, mul_comm]
        rw [← e1]
        exact hj0
      · have e1 : r / 2 / 2 ^ j = r / 2 ^ (j + 1) := by
          rw [pow_succ, div_div, mul_comm]
        rw [← e1]
        exact hj1
      · right
        rw [pow_succ]
        rcases hj2 with h | h
        · linarith
        · linarith
    · refine ⟨0, ?_, by simpa using h0, by simpa using not_lt.mp hr, Or.inl (by simp)⟩
      simp only [improved_exp_reduce]
      rw [if_neg hr]
      simp

/-- The squaring loop of `improved_exp` raises its start value to the power `2^k`. -/
theorem improved_exp_square_fold (v : ℝ) :
    ∀ k : Nat,
      (List.range k).foldl (fun (result : ℝ) (_ : Nat) => result * result) v = v ^ (2 ^ k) := by
  intro k
  induction k with
  | zero => simp
  | succ k ih =>
    rw [List.range_succ, List.foldl_append, ih]
    simp only [List.foldl_cons, List.foldl_nil]
    rw [pow_succ 2 k, pow_mul]
    ring

/-- The sixteen-term exponential sum on `[0, 1]`: it is at least `1`, at most
`exp r`, and misses `exp r` by at most `17 / (16! * 16)`. -/
theorem exp_series_15_error (r : ℝ) (h0 : 0 ≤ r) (h1 : r ≤ 1) :
    1 ≤ maclaurin_sum "exp" r 15
      ∧ maclaurin_sum "exp" r 15 ≤ Real.exp r
      ∧ Real.exp r - maclaurin_sum "exp" r 15 ≤ 17 / ((Nat.factorial 16 : ℝ) * 16) := by
  have hm : maclaurin_sum "exp" r 15 = ∑ k in range 16, r ^ k / (Nat.factorial k : ℝ) := by
    have h := maclaurin_sum_exp_eq r 15
    simpa using h
  rw [hm]
  refine ⟨?_, Real.sum_le_exp_of_nonneg h0 16, ?_⟩
  · rw [Finset.sum_range_succ']
    have hnn : 0 ≤ ∑ k in range 15, r ^ (k + 1) / (Nat.factorial (k + 1) : ℝ) :=
      Finset.sum_nonneg (fun k _ => div_nonneg (pow_nonneg h0 _) (Nat.cast_nonneg _))
    simp only [pow_zero, Nat.factorial_zero, Nat.cast_one, div_one]
    linarith
  · have h := Real.exp_bound' h0 h1 (n := 16) (by norm_num)
    have hp : r ^ 16 ≤ 1 := pow_le_one₀ h0 h1
    have hd : (0 : ℝ) < (Nat.factorial 16 : ℝ) * 16 := by positivity
    have h2 : r ^ 16 * ((16 : ℕ) + 1) / ((Nat.factorial 16 : ℝ) * (16 : ℕ))
        ≤ 17 / ((Nat.factorial 16 : ℝ) * 16) := by
      push_cast
      apply div_le_div_of_nonneg_right _ (le_of_lt hd)
      nlinarith [pow_nonneg h0 16]
    linarith

/-- C5: for every real `t` with `0 ≤ t ≤ 50`, `improved_exp` (which halves `t`
until it is at most `1`, sums the series with `n_terms = 15` and squares once
per halving) returns a value, as soon as six halvings are allowed, and its
relative error against the true exponential is below `1e-9`. -/
theorem improved_exp_rel_error (t : ℝ) (h0 : 0 ≤ t) (h50 : t ≤ 50) (fuel : Nat)
    (hfuel : 6 ≤ fuel) :
    ∃ v : ℝ, improved_exp fuel t = some v ∧ |v - Real.exp t| / Real.exp t < 1e-9 := by
  have hpow : (50 : ℝ) ≤ 2 ^ fuel := by
    have h64 : (2 : ℝ) ^ 6 ≤ 2 ^ fuel := pow_le_pow_right₀ (by norm_num) hfuel
    norm_num at h64
    linarith
  obtain ⟨j, hj, hr0, hr1, hj2⟩ := improved_exp_reduce_spec fuel t 0 h0 (by linarith)
  obtain ⟨hE1, hEle, hEerr⟩ := exp_series_15_error (t / 2 ^ j) hr0 hr1
  refine ⟨maclaurin_sum "exp" (t / 2 ^ j) 15 ^ (2 ^ j), ?_, ?_⟩
  · unfold improved_exp
    rw [hj]
    simp only []
    rw [improved_exp_square_fold]
    simp
  · set E := maclaurin_sum "exp" (t / 2 ^ j) 15 with hE
    set e := Real.exp (t / 2 ^ j) with he
    have he1 : 1 ≤ e := Real.one_le_exp hr0
    have hepos : 0 < e := by linarith
    have hexp : Real.exp t = e ^ (2 ^ j) := by
      rw [he, ← Real.exp_nat_mul]
      congr 1
      push_cast
      field_simp
    have hm : ((2 ^ j : Nat) : ℝ) < 100 := by
      push_cast
      rcases hj2 with h | h
      · linarith
      · linarith
    have hfac : (17 : ℝ) / ((Nat.factorial 16 : ℝ) * 16) < 1e-12 := by
      norm_num [Nat.factorial]
    -- the ratio `E / e` is `1 - δ` with a tiny `δ`
    have hδ0 : 0 ≤ (e - E) / e := div_nonneg (by linarith) (le_of_lt hepos)
    have hδ1 : (e - E) / e ≤ 17 / ((Nat.factorial 16 : ℝ) * 16) := by
      rw [div_le_iff₀ hepos]
      have hpos : (0 : ℝ) ≤ 17 / ((Nat.factorial 16 : ℝ) * 16) := by positivity
      nlinarith
    have hratio : E / e = 1 + -((e - E) / e) := by
      field_simp
    have hbern := one_add_mul_le_pow (a := -((e - E) / e)) (by linarith) (2 ^ j)
    rw [← hratio] at hbern
    have hle1 : (E / e) ^ (2 ^ j) ≤ 1 := by
      apply pow_le_one₀ (div_nonneg (by linarith) (le_of_lt hepos))
      rw [div_le_one hepos]
      exact hEle
    have hEpow : E ^ (2 ^ j) = (E / e) ^ (2 ^ j) * e ^ (2 ^ j) := by
      rw [← mul_pow]
      congr 1
      field_simp
    have hepowpos : 0 < e ^ (2 ^ j) := pow_pos hepos _
    rw [hexp, hEpow]
    have habs : |(E / e) ^ (2 ^ j) * e ^ (2 ^ j) - e ^ (2 ^ j)| / e ^ (2 ^ j)
        = 1 - (E / e) ^ (2 ^ j) := by
      have e1 : (E / e) ^ (2 ^ j) * e ^ (2 ^ j) - e ^ (2 ^ j)
          = -((1 - (E / e) ^ (2 ^ j)) * e ^ (2 ^ j)) := by ring
      rw [e1, abs_neg, abs_of_nonneg (mul_nonneg (by linarith) (le_of_lt hepowpos))]
      field_simp
    rw [habs]
    have hmδ : ((2 ^ j : Nat) : ℝ) * ((e - E) / e) < 100 * 1e-12 := by
      have hmnn : (0 : ℝ) ≤ ((2 ^ j : Nat) : ℝ) := Nat.cast_nonneg _
      nlinarith
    norm_num at hmδ hbern ⊢
    linarith

/-- C5 at `t = 50` with six halvings allowed. -/
theorem improved_exp_rel_error_witness :
    ∃ v : ℝ, improved_exp 6 (50 : ℝ) = some v ∧ |v - Real.exp 50| / Real.exp 50 < 1e-9 :=
  improved_exp_rel_error 50 (by norm_num) (le_refl 50) 6 (le_refl 6)

end RealLemmas

section NewtonLemmas

/-- One iteration of the loop of `newton_method`, in terms of `newton_F` and
`newton_dF`. -/
theorem newton_method_loop_succ {K : Type} [LinearOrderedField K] (tan cos : K → K)
    (epsilon : K) (fuel : Nat) (x : K) :
    newton_method_loop tan cos epsilon (fuel + 1) x
      = if |newton_dF tan cos x| < 1e-12 then x
        else if |x - newton_F tan x / newton_dF tan cos x - x| < epsilon then
          x - newton_F tan x / newton_dF tan cos x
        else newton_method_loop tan cos epsilon fuel (x - newton_F tan x / newton_dF tan cos x) := by
  simp only [newton_method_loop, newton_F, newton_dF]

theorem cos_pos_unit (x : ℝ) (h0 : 0 ≤ x) (h1 : x ≤ 1) : 0 < Real.cos x := by
  apply Real.cos_pos_of_mem_Ioo
  constructor
  · linarith [Real.pi_pos]
  · linarith [Real.pi_gt_three]

theorem tan_nonneg_unit (x : ℝ) (h0 : 0 ≤ x) (h1 : x ≤ 1) : 0 ≤ Real.tan x :=
  Real.tan_nonneg_of_nonneg_of_le_pi_div_two h0 (by linarith [Real.pi_gt_three])

/-- On `[0, 1]` the value `newton_dF` is the derivative of `newton_F`. -/
theorem hasDerivAt_newton_F (x : ℝ) (h0 : 0 ≤ x) (h1 : x ≤ 1) :
    HasDerivAt (newton_F Real.tan) (newton_dF Real.tan Real.cos x) x := by
  have hc : Real.cos x ≠ 0 := ne_of_gt (cos_pos_unit x h0 h1)
  have htan := Real.hasDerivAt_tan hc
  have h := (((hasDerivAt_id x).mul (hasDerivAt_id x)).add (htan.mul htan)).sub_const 1
  unfold newton_dF
  convert h using 1
  simp only [id]
  field_simp
  ring

/-- The derivative `newton_dF` is monotone on `[0, 1]`. -/
theorem newton_dF_mono (x y : ℝ) (h0 : 0 ≤ x) (hxy : x ≤ y) (h1 : y ≤ 1) :
    newton_dF Real.tan Real.cos x ≤ newton_dF Real.tan Real.cos y := by
  unfold newton_dF
  have hcx := cos_pos_unit x h0 (by linarith)
  have hcy := cos_pos_unit y (by linarith) h1
  have hty := tan_nonneg_unit y (by linarith) h1
  have hpi := Real.pi_gt_three
  have htan : Real.tan x ≤ Real.tan y :=
    Real.strictMonoOn_tan.monotoneOn ⟨by linarith, by linarith⟩ ⟨by linarith, by linarith⟩ hxy
  have hcos : Real.cos y ≤ Real.cos x :=
    Real.cos_le_cos_of_nonneg_of_le_pi h0 (by linarith) hxy
  have hcc : Real.cos y * Real.cos y ≤ Real.cos x * Real.cos x :=
    mul_le_mul hcos hcos (le_of_lt hcy) (le_of_lt hcx)
  have hdiv : 2 * Real.tan x / (Real.cos x * Real.cos x)
      ≤ 2 * Real.tan y / (Real.cos y * Real.cos y) :=
    div_le_div₀ (by linarith) (by linarith) (mul_pos hcy hcy) hcc
  linarith

theorem newton_dF_nonneg (x : ℝ) (h0 : 0 ≤ x) (h1 : x ≤ 1) :
    0 ≤ newton_dF Real.tan Real.cos x := by
  unfold newton_dF
  have hc := cos_pos_unit x h0 h1
  have ht := tan_nonneg_unit x h0 h1
  have : 0 ≤ 2 * Real.tan x / (Real.cos x * Real.cos x) :=
    div_nonneg (by linarith) (le_of_lt (mul_pos hc hc))
  linarith

/-- On `[0, 1]` the graph of `newton_F` lies above each of its tangents. -/
theorem newton_F_tangent (x y : ℝ) (hx0 : 0 ≤ x) (hx1 : x ≤ 1) (hy0 : 0 ≤ y) (hy1 : y ≤ 1) :
    newton_F Real.tan x + newton_dF Real.tan Real.cos x * (y - x) ≤ newton_F Real.tan y := by
  rcases lt_trichotomy x y with h | h | h
  · have hcont : ContinuousOn (newton_F Real.tan) (Set.Icc x y) := fun z hz =>
      (hasDerivAt_newton_F z (by linarith [hz.1]) (by linarith [hz.2])).continuousAt.continuousWithinAt
    obtain ⟨c, hc, hslope⟩ := exists_hasDerivAt_eq_slope (newton_F Real.tan)
      (newton_dF Real.tan Real.cos) h hcont
      (fun z hz => hasDerivAt_newton_F z (by linarith [hz.1]) (by linarith [hz.2]))
    have hmono := newton_dF_mono x c hx0 (le_of_lt hc.1) (by linarith [hc.2])
    rw [hslope, le_div_iff₀ (by linarith)] at hmono
    linarith
  · subst h
    simp
  · have hcont : ContinuousOn (newton_F Real.tan) (Set.Icc y x) := fun z hz =>
      (hasDerivAt_newton_F z (by linarith [hz.1]) (by linarith [hz.2])).continuousAt.continuousWithinAt
    obtain ⟨c, hc, hslope⟩ := exists_hasDerivAt_eq_slope (newton_F Real.tan)
      (newton_dF Real.tan Real.cos) h hcont
      (fun z hz => hasDerivAt_newton_F z (by linarith [hz.1]) (by linarith [hz.2]))
    have hmono := newton_dF_mono c x (by linarith [hc.1]) (le_of_lt hc.2) hx1
    rw [hslope, div_le_iff₀ (by linarith)] at hmono
    linarith

/-- The function `newton_F` is monotone on `[0, 1]`. -/
theorem newton_F_mono (x y : ℝ) (h0 : 0 ≤ x) (hxy : x ≤ y) (h1 : y ≤ 1) :
    newton_F Real.tan x ≤ newton_F Real.tan y := by
  have h := newton_F_tangent x y h0 (by linarith) (by linarith) h1
  have hd := newton_dF_nonneg x h0 (by linarith)
  nlinarith

/-- Rational enclosures of the sine and the cosine at `0.6`. -/
theorem trig_bounds_06 :
    (0.5646 : ℝ) ≤ Real.sin 0.6 ∧ Real.sin 0.6 ≤ 0.5647
      ∧ (0.8253 : ℝ) ≤ Real.cos 0.6 ∧ Real.cos 0.6 ≤ 0.8254 := by
  have h1 := sinPoly_even_le_sin 1 (0.6 : ℝ) (by norm_num)
  have h2 := sin_le_sinPoly_odd 1 (0.6 : ℝ) (by norm_num)
  have h3 := cosPoly_even_le_cos 1 (0.6 : ℝ) (by norm_num)
  have h4 := cos_le_cosPoly_odd 1 (0.6 : ℝ) (by norm_num)
  norm_num [sinTerm, cosTerm, Finset.sum_range_succ, Nat.factorial] at h1 h2 h3 h4
  refine ⟨?_, ?_, ?_, ?_⟩ <;> norm_num <;> linarith

/-- Rational enclosures of the sine and the cosine at `0.66`. -/
theorem trig_bounds_066 :
    (0.6131 : ℝ) ≤ Real.sin 0.66 ∧ Real.sin 0.66 ≤ 0.6132
      ∧ (0.7899 : ℝ) ≤ Real.cos 0.66 ∧ Real.cos 0.66 ≤ 0.7902 := by
  have h1 := sinPoly_even_le_sin 1 (0.66 : ℝ) (by norm_num)
  have h2 := sin_le_sinPoly_odd 1 (0.66 : ℝ) (by norm_num)
  have h3 := cosPoly_even_le_cos 1 (0.66 : ℝ) (by norm_num)
  have h4 := cos_le_cosPoly_odd 1 (0.66 : ℝ) (by norm_num)
  norm_num [sinTerm, cosTerm, Finset.sum_range_succ, Nat.factorial] at h1 h2 h3 h4
  refine ⟨?_, ?_, ?_, ?_⟩ <;> norm_num <;> linarith

/-- Enclosures of `tan`, `tan²` and `tan / cos²` from enclosures of the sine and
the cosine. -/
theorem tan_enclosure (x sl sh cl ch : ℝ) (hsl0 : 0 ≤ sl) (hcl0 : 0 < cl)
    (hs1 : sl ≤ Real.sin x) (hs2 : Real.sin x ≤ sh)
    (hc1 : cl ≤ Real.cos x) (hc2 : Real.cos x ≤ ch) :
    (sl / ch) * (sl / ch) ≤ Real.tan x * Real.tan x
      ∧ Real.tan x * Real.tan x ≤ (sh / cl) * (sh / cl)
      ∧ (sl / ch) / (ch * ch) ≤ Real.tan x / (Real.cos x * Real.cos x)
      ∧ Real.tan x / (Real.cos x * Real.cos x) ≤ (sh / cl) / (cl * cl) := by
  have hcpos : 0 < Real.cos x := by linarith
  have hch0 : 0 < ch := by linarith
  have hs0 : 0 ≤ Real.sin x := by linarith
  have ht1 : sl / ch ≤ Real.tan x := by
    rw [Real.tan_eq_sin_div_cos]
    exact div_le_div₀ hs0 hs1 hcpos hc2
  have ht2 : Real.tan x ≤ sh / cl := by
    rw [Real.tan_eq_sin_div_cos]
    exact div_le_div₀ (by linarith) hs2 hcl0 hc1
  have hlo0 : 0 ≤ sl / ch := div_nonneg hsl0 (le_of_lt hch0)
  have ht0 : 0 ≤ Real.tan x := le_trans hlo0 ht1
  have hcc1 : cl * cl ≤ Real.cos x * Real.cos x :=
    mul_le_mul hc1 hc1 (le_of_lt hcl0) (le_of_lt hcpos)
  have hcc2 : Real.cos x * Real.cos x ≤ ch * ch :=
    mul_le_mul hc2 hc2 (le_of_lt hcpos) (le_of_lt hch0)
  refine ⟨mul_le_mul ht1 ht1 hlo0 ht0, mul_le_mul ht2 ht2 ht0 (le_trans ht0 ht2), ?_, ?_⟩
  · exact div_le_div₀ ht0 ht1 (mul_pos hcpos hcpos) hcc2
  · exact div_le_div₀ (le_trans ht0 ht2) ht2 (mul_pos hcl0 hcl0) hcc1

/-- Values of `newton_F` and `newton_dF` at `0.6` and at `0.66`. -/
theorem newton_numeric :
    (-0.18 : ℝ) ≤ newton_F Real.tan 0.6 ∧ newton_F Real.tan 0.6 ≤ -0.1
      ∧ (3.1 : ℝ) ≤ newton_dF Real.tan Real.cos 0.6
      ∧ newton_dF Real.tan Real.cos 0.6 ≤ 3.3
      ∧ newton_F Real.tan 0.66 ≤ 0.05
      ∧ newton_dF Real.tan Real.cos 0.66 ≤ 3.85 := by
  obtain ⟨a1, a2, a3, a4⟩ := trig_bounds_06
  obtain ⟨b1, b2, b3, b4⟩ := trig_bounds_066
  obtain ⟨p1, p2, p3, p4⟩ := tan_enclosure 0.6 0.5646 0.5647 0.8253 0.8254
    (by norm_num) (by norm_num) a1 a2 a3 a4
  obtain ⟨_, q2, _, q4⟩ := tan_enclosure 0.66 0.6131 0.6132 0.7899 0.7902
    (by norm_num) (by norm_num) b1 b2 b3 b4
  unfold newton_F newton_dF
  norm_num at p1 p2 p3 p4 q2 q4
  refine ⟨?_, ?_, ?_, ?_, ?_, ?_⟩
  · norm_num
    linarith
  · norm_num
    linarith
  · rw [mul_div_assoc]
    norm_num
    linarith
  · rw [mul_div_assoc]
    norm_num
    linarith
  · norm_num
    linarith
  · rw [mul_div_assoc]
    norm_num
    linarith

/-- One Newton step from a point `x` of `[0.6, 0.66]` with `newton_F x ≥ 0`:
the derivative is between `3.1` and `3.85`, the step `d = F(x) / F'(x)` is
non-negative, and the new point `x - d` stays in `[0.6, 0.66]` with
`0 ≤ newton_F (x - d) ≤ 0.75 * d`. -/
theorem newton_step (x : ℝ) (hx0 : 0.6 ≤ x) (hx1 : x ≤ 0.66)
    (hF : 0 ≤ newton_F Real.tan x) :
    3.1 ≤ newton_dF Real.tan Real.cos x
      ∧ 0 ≤ newton_F Real.tan x / newton_dF Real.tan Real.cos x
      ∧ newton_F Real.tan x / newton_dF Real.tan Real.cos x ≤ newton_F Real.tan x / 3.1
      ∧ 0.6 ≤ x - newton_F Real.tan x / newton_dF Real.tan Real.cos x
      ∧ 0 ≤ newton_F Real.tan (x - newton_F Real.tan x / newton_dF Real.tan Real.cos x)
      ∧ newton_F Real.tan (x - newton_F Real.tan x / newton_dF Real.tan Real.cos x)
          ≤ 0.75 * (newton_F Real.tan x / newton_dF Real.tan Real.cos x) := by
  obtain ⟨_, n2, n3, _, n5, n6⟩ := newton_numeric
  have hd1 : 3.1 ≤ newton_dF Real.tan Real.cos x :=
    le_trans n3 (newton_dF_mono 0.6 x (by norm_num) hx0 (by linarith))
  have hd2 : newton_dF Real.tan Real.cos x ≤ 3.85 :=
    le_trans (newton_dF_mono x 0.66 (by linarith) hx1 (by norm_num)) n6
  have hdpos : 0 < newton_dF Real.tan Real.cos x := by linarith
  have hFle : newton_F Real.tan x ≤ 0.05 :=
    le_trans (newton_F_mono x 0.66 (by linarith) hx1 (by norm_num)) n5
  have hΔ0 : 0 ≤ newton_F Real.tan x / newton_dF Real.tan Real.cos x :=
    div_nonneg hF (le_of_lt hdpos)
  have hΔ1 : newton_F Real.tan x / newton_dF Real.tan Real.cos x ≤ newton_F Real.tan x / 3.1 :=
    div_le_div_of_nonneg_left hF (by norm_num) hd1
  have hΔ2 : newton_F Real.tan x / newton_dF Real.tan Real.cos x ≤ 0.02 := by
    have : newton_F Real.tan x / 3.1 ≤ 0.02 := by
      rw [div_le_iff₀ (by norm_num)]
      norm_num
      linarith
    linarith
  have hmul : newton_dF Real.tan Real.cos x
      * (newton_F Real.tan x / newton_dF Real.tan Real.cos x) = newton_F Real.tan x := by
    field_simp
  set d := newton_F Real.tan x / newton_dF Real.tan Real.cos x with hd
  have hy0 : 0 ≤ x - d := by linarith
  have hy1 : x - d ≤ 1 := by linarith
  have ht1 := newton_F_tangent x (x - d) (by linarith) (by linarith) hy0 hy1
  have hFy : 0 ≤ newton_F Real.tan (x - d) := by nlinarith
  have hy06 : 0.6 ≤ x - d := by
    by_contra hlt
    have := newton_F_mono (x - d) 0.6 hy0 (le_of_lt (not_le.mp hlt)) (by norm_num)
    linarith
  have ht2 := newton_F_tangent (x - d) x hy0 hy1 (by linarith) (by linarith)
  have hd3 : 3.1 ≤ newton_dF Real.tan Real.cos (x - d) :=
    le_trans n3 (newton_dF_mono 0.6 (x - d) (by norm_num) hy06 hy1)
  refine ⟨hd1, hΔ0, hΔ1, hy06, hFy, ?_⟩
  nlinarith

/-- The loop of `newton_method` started in `[0.6, 0.66]` at a point where
`newton_F` is non-negative and below `1e-6 * 3^fuel` returns a point where
`newton_F` is below `1e-6` in absolute value. -/
theorem newton_method_loop_converges :
    ∀ (fuel : Nat) (x : ℝ), 0.6 ≤ x → x ≤ 0.66 → 0 ≤ newton_F Real.tan x →
      newton_F Real.tan x < 1e-6 * 3 ^ fuel →
      |newton_F Real.tan (newton_method_loop Real.tan Real.cos 1e-6 fuel x)| < 1e-6 := by
  intro fuel
  induction fuel with
  | zero =>
    intro x _ _ hF hlt
    simp only [newton_method_loop]
    rw [abs_of_nonneg hF]
    simpa using hlt
  | succ fuel ih =>
    intro x hx0 hx1 hF hlt
    obtain ⟨hd1, hΔ0, hΔ1, hy06, hFy, hFy2⟩ := newton_step x hx0 hx1 hF
    rw [newton_method_loop_succ]
    have hsing : ¬ |newton_dF Real.tan Real.cos x| < 1e-12 := by
      rw [abs_of_nonneg (by linarith)]
      norm_num
      linarith
    rw [if_neg hsing]
    set d := newton_F Real.tan x / newton_dF Real.tan Real.cos x with hd
    have habs : |x - d - x| = d := by
      have : x - d - x = -d := by ring
      rw [this, abs_neg, abs_of_nonneg hΔ0]
    rw [habs]
    by_cases hconv : d < 1e-6
    · rw [if_pos hconv, abs_of_nonneg hFy]
      norm_num at hconv ⊢
      linarith
    · rw [if_neg hconv]
      apply ih (x - d) hy06 (by linarith) hFy
      have h1 : newton_F Real.tan (x - d) ≤ newton_F Real.tan x / 3 := by
        have : newton_F Real.tan x / 3.1 ≤ newton_F Real.tan x / 3 * (1 / 0.75) := by
          norm_num
          linarith
        have h2 : d ≤ newton_F Real.tan x / 3 * (1 / 0.75) := le_trans hΔ1 this
        norm_num at h2 hFy2 ⊢
        linarith
      rw [pow_succ] at hlt
      linarith

/-- C6: Newton's method on `F(x) = x² + tan²(x) - 1` started at `x0 = 0.6` with
`epsilon = 1e-6` and `max_iterations = 100` (the values of `main`) returns a
point `x` with `|x² + tan²(x) - 1| < 1e-6`, in exact real arithmetic with the
real `tan` and `cos`. -/
theorem newton_method_root :
    ∃ x : ℝ, newton_method Real.tan Real.cos 0.6 1e-6 100 = x
      ∧ |x ^ 2 + Real.tan x ^ 2 - 1| < 1e-6 := by
  refine ⟨_, rfl, ?_⟩
  have hgoal : ∀ y : ℝ, y ^ 2 + Real.tan y ^ 2 - 1 = newton_F Real.tan y := by
    intro y
    unfold newton_F
    ring
  rw [hgoal]
  obtain ⟨n1, n2, n3, n4, n5, _⟩ := newton_numeric
  unfold newton_method
  have h100 : Int.toNat 100 = 99 + 1 := by decide
  rw [h100, newton_method_loop_succ]
  have hsing : ¬ |newton_dF Real.tan Real.cos 0.6| < 1e-12 := by
    rw [abs_of_nonneg (by linarith)]
    norm_num
    linarith
  rw [if_neg hsing]
  have hdpos : 0 < newton_dF Real.tan Real.cos 0.6 := by linarith
  have hmul : newton_dF Real.tan Real.cos 0.6
      * (newton_F Real.tan 0.6 / newton_dF Real.tan Real.cos 0.6) = newton_F Real.tan 0.6 := by
    field_simp
  -- the first step goes to the right by between `0.03` and `0.06`
  have hs1 : newton_F Real.tan 0.6 / newton_dF Real.tan Real.cos 0.6 ≤ -0.03 := by
    rw [div_le_iff₀ hdpos]
    nlinarith
  have hs2 : -0.06 ≤ newton_F Real.tan 0.6 / newton_dF Real.tan Real.cos 0.6 := by
    rw [le_div_iff₀ hdpos]
    nlinarith
  set d := newton_F Real.tan 0.6 / newton_dF Real.tan Real.cos 0.6 with hd
  have habs : |0.6 - d - 0.6| = -d := by
    have : (0.6 : ℝ) - d - 0.6 = -d := by ring
    rw [this, abs_neg, abs_of_nonpos (by linarith)]
  have hconv : ¬ |0.6 - d - 0.6| < 1e-6 := by
    rw [habs]
    norm_num
    linarith
  rw [if_neg hconv]
  have ht := newton_F_tangent 0.6 (0.6 - d) (by norm_num) (by norm_num) (by linarith)
    (by linarith)
  have hF1 : 0 ≤ newton_F Real.tan (0.6 - d) := by nlinarith
  have hF2 : newton_F Real.tan (0.6 - d) ≤ 0.05 :=
    le_trans (newton_F_mono (0.6 - d) 0.66 (by linarith) (by linarith) (by norm_num)) n5
  apply newton_method_loop_converges 99 (0.6 - d) (by linarith) (by linarith) hF1
  have hbig : (1 : ℝ) ≤ 1e-6 * 3 ^ 99 := by norm_num
  linarith

end NewtonLemmas

section QuadratureWeights

variable {K : Type} [LinearOrderedField K]

/-- A sum over the points `0 .. n` split into the two end points and the
interior points `1 .. n-1`. -/
theorem sum_range_ends (g : Nat → K) (n : Nat) (hn : 1 ≤ n) :
    ∑ i in range (n + 1), g i = g 0 + g n + ∑ i in range (n - 1), g (1 + i) := by
  obtain ⟨m, rfl⟩ : ∃ m, n = m + 1 := ⟨n - 1, by omega⟩
  rw [Finset.sum_range_succ, Finset.sum_range_succ']
  have e : m + 1 - 1 = m := by omega
  rw [e]
  have e2 : ∑ i in range m, g (i + 1) = ∑ i in range m, g (1 + i) :=
    Finset.sum_congr rfl (fun i _ => by rw [add_comm])
  rw [e2]
  ring

/-- `simpson_method` at an even count `n ≥ 2` is `h/3` times the sum with the
weights `1-4-2-...-4-1`. -/
theorem simpson_method_weights (f : K → K) (a b : K) (n : Nat) (hn : 1 ≤ n) (he : n % 2 = 0) :
    simpson_method f a b n
      = (b - a) / (n : K) / 3
        * ∑ i in range (n + 1), simpson_weight n i * f (a + (i : K) * ((b - a) / (n : K))) := by
  rw [simpson_method_eq_sum f a b n he, sum_range_ends _ n hn]
  have hne : (n : K) ≠ 0 := by exact_mod_cast (by omega : n ≠ 0)
  have h0 : (simpson_weight n 0 : K) = 1 := by simp [simpson_weight]
  have hlast : (simpson_weight n n : K) = 1 := by simp [simpson_weight]
  have hb : a + (n : K) * ((b - a) / (n : K)) = b := by
    field_simp
  have hint : ∑ i in range (n - 1),
        simpson_weight n (1 + i) * f (a + ((1 + i : Nat) : K) * ((b - a) / (n : K)))
      = ∑ i in range (n - 1),
          (if (1 + i) % 2 = 0 then (2 : K) else 4)
            * f (a + ((1 + i : Nat) : K) * ((b - a) / (n : K))) := by
    apply Finset.sum_congr rfl
    intro i hi
    have hi' : i < n - 1 := Finset.mem_range.mp hi
    have hne2 : ¬ (1 + i = 0 ∨ 1 + i = n) := by omega
    simp only [simpson_weight, if_neg hne2]
  rw [hint, h0, hlast, hb]
  simp only [Nat.cast_zero, zero_mul, add_zero, one_mul]
  ring

/-- `three_eights_method` at a count `n ≥ 3` that is a multiple of three is
`3h/8` times the sum with the weights `1-3-3-2-...-3-3-1`. -/
theorem three_eights_method_weights (f : K → K) (a b : K) (n : Nat) (hn : 1 ≤ n)
    (he : n % 3 = 0) :
    three_eights_method f a b n
      = 3 * ((b - a) / (n : K)) / 8
        * ∑ i in range (n + 1),
            three_eights_weight n i * f (a + (i : K) * ((b - a) / (n : K))) := by
  rw [three_eights_method_eq_sum f a b n he, sum_range_ends _ n hn]
  have hne : (n : K) ≠ 0 := by exact_mod_cast (by omega : n ≠ 0)
  have h0 : (three_eights_weight n 0 : K) = 1 := by simp [three_eights_weight]
  have hlast : (three_eights_weight n n : K) = 1 := by simp [three_eights_weight]
  have hb : a + (n : K) * ((b - a) / (n : K)) = b := by
    field_simp
  have hint : ∑ i in range (n - 1),
        three_eights_weight n (1 + i) * f (a + ((1 + i : Nat) : K) * ((b - a) / (n : K)))
      = ∑ i in range (n - 1),
          (if (1 + i) % 3 = 0 then (2 : K) else 3)
            * f (a + ((1 + i : Nat) : K) * ((b - a) / (n : K))) := by
    apply Finset.sum_congr rfl
    intro i hi
    have hi' : i < n - 1 := Finset.mem_range.mp hi
    have hne2 : ¬ (1 + i = 0 ∨ 1 + i = n) := by omega
    simp only [three_eights_weight, if_neg hne2]
  rw [hint, h0, hlast, hb]
  simp only [Nat.cast_zero, zero_mul, add_zero, one_mul]
  ring

/-- The count that `three_eights_method` integrates with is the least multiple
of three that is at least `n`. -/
theorem three_eights_method_least_multiple (f : K → K) (a b : K) (n : Nat) :
    three_eights_method f a b n = three_eights_method f a b (3 * ((n + 2) / 3)) := by
  by_cases h3 : n % 3 = 0
  · have e : 3 * ((n + 2) / 3) = n := by omega
    rw [e]
  · rw [three_eights_method_adjust f a b n h3]
    have e : n + (3 - n % 3) = 3 * ((n + 2) / 3) := by omega
    rw [e]

/-- C11: for every integrand, every `a`, `b` and every `n ≥ 1` the subdivision
count is adjusted upward before integrating: `simpson_method` at an odd `n` is
`simpson_method` at `n + 1`, and `three_eights_method` at `n` is
`three_eights_method` at `m = 3 * ((n + 2) / 3)`, the least multiple of three
that is at least `n`; at the adjusted counts the values are `h/3` times the sum
with the weights `1-4-2-...-4-1` and `3h/8` times the sum with the weights
`1-3-3-2-...-3-3-1`. -/
theorem quadrature_count_adjustment (f : K → K) (a b : K) (n : Nat) (hn : 1 ≤ n) :
    (n % 2 = 1 → simpson_method f a b n = simpson_method f a b (n + 1))
      ∧ three_eights_method f a b n = three_eights_method f a b (3 * ((n + 2) / 3))
      ∧ (3 ∣ 3 * ((n + 2) / 3) ∧ n ≤ 3 * ((n + 2) / 3)
          ∧ ∀ m : Nat, 3 ∣ m → n ≤ m → 3 * ((n + 2) / 3) ≤ m)
      ∧ simpson_method f a b n
          = (b - a) / ((n + n % 2 : Nat) : K) / 3
            * ∑ i in range (n + n % 2 + 1),
                simpson_weight (n + n % 2) i
                  * f (a + (i : K) * ((b - a) / ((n + n % 2 : Nat) : K)))
      ∧ three_eights_method f a b n
          = 3 * ((b - a) / ((3 * ((n + 2) / 3) : Nat) : K)) / 8
            * ∑ i in range (3 * ((n + 2) / 3) + 1),
                three_eights_weight (3 * ((n + 2) / 3)) i
                  * f (a + (i : K) * ((b - a) / ((3 * ((n + 2) / 3) : Nat) : K))) := by
  refine ⟨fun h => simpson_method_odd f a b n (by omega),
    three_eights_method_least_multiple f a b n, ⟨Dvd.intro _ rfl, by omega, ?_⟩, ?_, ?_⟩
  · intro m hm hnm
    obtain ⟨q, rfl⟩ := hm
    omega
  · rcases Nat.mod_two_eq_zero_or_one n with h | h
    · rw [h, Nat.add_zero]
      exact simpson_method_weights f a b n hn h
    · rw [h, simpson_method_odd f a b n (by omega)]
      exact simpson_method_weights f a b (n + 1) (by omega) (by omega)
  · rw [three_eights_method_least_multiple f a b n]
    exact three_eights_method_weights f a b (3 * ((n + 2) / 3)) (by omega) (by omega)

/-- C11 for the integrand `x ↦ x * x * x` over `[0, 2]` with `n = 5`. -/
theorem quadrature_count_adjustment_witness :
    ((5 : Nat) % 2 = 1 →
        simpson_method (fun x : ℚ => x * x * x) 0 2 5
          = simpson_method (fun x : ℚ => x * x * x) 0 2 (5 + 1))
      ∧ three_eights_method (fun x : ℚ => x * x * x) 0 2 5
          = three_eights_method (fun x : ℚ => x * x * x) 0 2 (3 * ((5 + 2) / 3))
      ∧ (3 ∣ 3 * ((5 + 2) / 3) ∧ 5 ≤ 3 * ((5 + 2) / 3)
          ∧ ∀ m : Nat, 3 ∣ m → 5 ≤ m → 3 * ((5 + 2) / 3) ≤ m)
      ∧ simpson_method (fun x : ℚ => x * x * x) 0 2 5
          = (2 - 0) / ((5 + 5 % 2 : Nat) : ℚ) / 3
            * ∑ i in range (5 + 5 % 2 + 1),
                simpson_weight (5 + 5 % 2) i
                  * (fun x : ℚ => x * x * x) (0 + (i : ℚ) * ((2 - 0) / ((5 + 5 % 2 : Nat) : ℚ)))
      ∧ three_eights_method (fun x : ℚ => x * x * x) 0 2 5
          = 3 * ((2 - 0) / ((3 * ((5 + 2) / 3) : Nat) : ℚ)) / 8
            * ∑ i in range (3 * ((5 + 2) / 3) + 1),
                three_eights_weight (3 * ((5 + 2) / 3)) i
                  * (fun x : ℚ => x * x * x)
                      (0 + (i : ℚ) * ((2 - 0) / ((3 * ((5 + 2) / 3) : Nat) : ℚ))) :=
  quadrature_count_adjustment (fun x : ℚ => x * x * x) 0 2 5 (by decide)

end QuadratureWeights

section RungeLemmas

variable {K : Type} [LinearOrderedField K]

/-- C12 (amended): in exact arithmetic, for every `I_h`, `I_h2` and every order
`p ≥ 1`, `runge_error I_h I_h2 p = |I_h - I_h2| / (2^p - 1)`; for `p = 4` it is
`|I_h - I_h2| / 15`; it is non-negative, and it is zero exactly when
`I_h = I_h2`. -/
theorem runge_error_spec (I_h I_h2 : K) (p : Nat) (hp : 1 ≤ p) :
    runge_error I_h I_h2 (p : Int) = |I_h - I_h2| / ((2 : K) ^ p - 1)
      ∧ runge_error I_h I_h2 4 = |I_h - I_h2| / 15
      ∧ 0 ≤ runge_error I_h I_h2 (p : Int)
      ∧ (runge_error I_h I_h2 (p : Int) = 0 ↔ I_h = I_h2) := by
  have hpow : (1 : K) < (2 : K) ^ p := one_lt_pow₀ (by norm_num) (by omega)
  have hpos : (0 : K) < (2 : K) ^ p - 1 := by linarith
  have h1 : runge_error I_h I_h2 (p : Int) = |I_h - I_h2| / ((2 : K) ^ p - 1) := by
    unfold runge_error
    rw [zpow_natCast]
  refine ⟨h1, ?_, ?_, ?_⟩
  · unfold runge_error
    norm_num
  · rw [h1]
    exact div_nonneg (abs_nonneg _) (le_of_lt hpos)
  · rw [h1, div_eq_zero_iff, abs_eq_zero, sub_eq_zero]
    constructor
    · rintro (h | h)
      · exact h
      · exact absurd h (ne_of_gt hpos)
    · exact fun h => Or.inl h

/-- C12 (amended) at `I_h = 3`, `I_h2 = 1` and the order `4` of Simpson's rule. -/
theorem runge_error_spec_witness :
    runge_error (3 : ℚ) 1 ((4 : Nat) : Int) = |(3 : ℚ) - 1| / ((2 : ℚ) ^ 4 - 1)
      ∧ runge_error (3 : ℚ) 1 4 = |(3 : ℚ) - 1| / 15
      ∧ 0 ≤ runge_error (3 : ℚ) 1 ((4 : Nat) : Int)
      ∧ (runge_error (3 : ℚ) 1 ((4 : Nat) : Int) = 0 ↔ (3 : ℚ) = 1) :=
  runge_error_spec 3 1 4 (by decide)

end RungeLemmas

section NewtonSingular

/-- C13: whenever the derivative at the current iterate `x` satisfies
`|F'(x)| < 1e-12`, `newton_method` started there (with any number of iterations
left) performs no update and returns `x`; in particular, with the real `tan`
and `cos`, `newton_method 0 epsilon max_iterations = 0` for every `epsilon` and
every `max_iterations`, because `F'(0) = 0`. -/
theorem newton_method_singular_derivative (x epsilon : ℝ) (max_iterations : Int)
    (h : |newton_dF Real.tan Real.cos x| < 1e-12) :
    newton_method Real.tan Real.cos x epsilon max_iterations = x
      ∧ (∀ fuel : Nat, newton_method_loop Real.tan Real.cos epsilon fuel x = x)
      ∧ newton_dF Real.tan Real.cos 0 = 0
      ∧ newton_method Real.tan Real.cos 0 epsilon max_iterations = 0 := by
  have hloop : ∀ (y : ℝ), |newton_dF Real.tan Real.cos y| < 1e-12 →
      ∀ fuel : Nat, newton_method_loop Real.tan Real.cos epsilon fuel y = y := by
    intro y hy fuel
    cases fuel with
    | zero => simp only [newton_method_loop]
    | succ fuel => rw [newton_method_loop_succ, if_pos hy]
  have h0 : newton_dF Real.tan Real.cos 0 = 0 := by
    simp [newton_dF]
  refine ⟨hloop x h _, hloop x h, h0, ?_⟩
  unfold newton_method
  apply hloop
  rw [h0]
  norm_num

/-- C13 at the starting point `0` with `epsilon = 1e-6` and `100` iterations. -/
theorem newton_method_singular_derivative_witness :
    newton_method Real.tan Real.cos 0 1e-6 100 = 0
      ∧ (∀ fuel : Nat, newton_method_loop Real.tan Real.cos 1e-6 fuel 0 = 0)
      ∧ newton_dF Real.tan Real.cos 0 = 0
      ∧ newton_method Real.tan Real.cos 0 1e-6 100 = 0 :=
  newton_method_singular_derivative 0 1e-6 100 (by simp [newton_dF]; norm_num)

end NewtonSingular

section SimpleIteration

variable {K : Type} [LinearOrderedField K]

/-- The loop of the simple iterations with `fuel` iterations left: it performs
`m ≤ fuel` updates (at least one when `fuel ≥ 1`), returns the `m`-th iterate and
raises the counter by `m`; no update before the last one passed the convergence
test, and the last one passed it when the loop stopped early. -/
theorem simple_iteration_loop_spec (g : K → K) :
    ∀ (fuel : Nat) (x : K) (c : Nat),
      ∃ m : Nat, m ≤ fuel ∧ (1 ≤ fuel → 1 ≤ m)
        ∧ simple_iteration_loop g fuel x c = (g^[m] x, c + m)
        ∧ (∀ j : Nat, j + 1 < m → ¬ |g^[j + 1] x - g^[j] x| < EPS)
        ∧ (m < fuel → |g^[m] x - g^[m - 1] x| < EPS) := by
  intro fuel
  induction fuel with
  | zero =>
    intro x c
    refine ⟨0, le_refl 0, fun h => absurd h (by decide), ?_, fun j hj => absurd hj (by omega),
      fun h => absurd h (by decide)⟩
    simp [simple_iteration_loop]
  | succ fuel ih =>
    intro x c
    by_cases hconv : |g x - x| < EPS
    · refine ⟨1, by omega, fun _ => le_refl 1, ?_, fun j hj => absurd hj (by omega), ?_⟩
      · simp only [simple_iteration_loop, if_pos hconv, Function.iterate_one]
      · intro _
        simpa using hconv
    · obtain ⟨m, hm1, hm2, hm3, hm4, hm5⟩ := ih (g x) (c + 1)
      refine ⟨m + 1, by omega, fun _ => by omega, ?_, ?_, ?_⟩
      · simp only [simple_iteration_loop, if_neg hconv, hm3, Function.iterate_succ_apply]
        rw [Nat.add_assoc, Nat.add_comm 1 m]
      · intro j hj
        cases j with
        | zero => simpa using hconv
        | succ j =>
          have := hm4 j (by omega)
          simpa only [Function.iterate_succ_apply] using this
      · intro hlt
        have hm : m < fuel := by omega
        have h1 : 1 ≤ m := hm2 (by omega)
        have := hm5 hm
        obtain ⟨q, rfl⟩ : ∃ q, m = q + 1 := ⟨m - 1, by omega⟩
        simp only [Nat.add_sub_cancel] at this ⊢
        simpa only [Function.iterate_succ_apply] using this

/-- C14: for every `t` and `x0` (and whatever the library functions return),
`simple_iteration_left` and `simple_iteration_right` perform at most `1000`
updates: the reported iteration count `c` is between `1` and `1000`, the
returned value is the `c`-th iterate of the update, no earlier update passed the
test `|x_new - x| < EPS`, and when `c < 1000` the last update passed it; so the
first iterate that passes the test is returned, and the `1000`-th iterate when
none does. -/
theorem simple_iteration_bounded (exp sqrt log : K → K) (t x0 : K) :
    (1 ≤ (simple_iteration_left exp t x0).2 ∧ (simple_iteration_left exp t x0).2 ≤ 1000
        ∧ (simple_iteration_left exp t x0).1
            = (fun x => t * exp (x * x))^[(simple_iteration_left exp t x0).2] x0
        ∧ (∀ j : Nat, j + 1 < (simple_iteration_left exp t x0).2 →
            ¬ |(fun x => t * exp (x * x))^[j + 1] x0 - (fun x => t * exp (x * x))^[j] x0| < EPS)
        ∧ ((simple_iteration_left exp t x0).2 < 1000 →
            |(fun x => t * exp (x * x))^[(simple_iteration_left exp t x0).2] x0
              - (fun x => t * exp (x * x))^[(simple_iteration_left exp t x0).2 - 1] x0| < EPS))
      ∧ (1 ≤ (simple_iteration_right sqrt log t x0).2
        ∧ (simple_iteration_right sqrt log t x0).2 ≤ 1000
        ∧ (simple_iteration_right sqrt log t x0).1
            = (fun x => sqrt (log (x / t)))^[(simple_iteration_right sqrt log t x0).2] x0
        ∧ (∀ j : Nat, j + 1 < (simple_iteration_right sqrt log t x0).2 →
            ¬ |(fun x => sqrt (log (x / t)))^[j + 1] x0
                - (fun x => sqrt (log (x / t)))^[j] x0| < EPS)
        ∧ ((simple_iteration_right sqrt log t x0).2 < 1000 →
            |(fun x => sqrt (log (x / t)))^[(simple_iteration_right sqrt log t x0).2] x0
              - (fun x => sqrt (log (x / t)))^[(simple_iteration_right sqrt log t x0).2 - 1] x0|
              < EPS)) := by
  constructor
  · obtain ⟨m, h1, h2, h3, h4, h5⟩ :=
      simple_iteration_loop_spec (fun x => t * exp (x * x)) 1000 x0 0
    unfold simple_iteration_left
    rw [h3]
    simp only [Nat.zero_add]
    exact ⟨h2 (by norm_num), h1, trivial, h4, h5⟩
  · obtain ⟨m, h1, h2, h3, h4, h5⟩ :=
      simple_iteration_loop_spec (fun x => sqrt (log (x / t))) 1000 x0 0
    unfold simple_iteration_right
    rw [h3]
    simp only [Nat.zero_add]
    exact ⟨h2 (by norm_num), h1, trivial, h4, h5⟩

end SimpleIteration

section DoubleDividedDifferences

/-- One pass of the inner loop of `divided_differences` in `double` arithmetic
over the rows `0 .. m-1` of column `j`. -/
theorem binary64_dd_inner_fold (x : List Binary64) (j : Nat) (hj : 1 ≤ j)
    (d : Nat → Nat → Binary64) :
    ∀ m a b : Nat,
      ((List.range m).foldl
        (fun (d : Nat → Nat → Binary64) (i : Nat) =>
          Binary64.assign d i j (Binary64.div (Binary64.sub (d (i + 1) (j - 1)) (d i (j - 1)))
            (Binary64.sub (x.getD (i + j) (Binary64.lit 0 1)) (x.getD i (Binary64.lit 0 1)))))
        d) a b
        = if b = j ∧ a < m then
            Binary64.div (Binary64.sub (d (a + 1) (j - 1)) (d a (j - 1)))
              (Binary64.sub (x.getD (a + j) (Binary64.lit 0 1)) (x.getD a (Binary64.lit 0 1)))
          else d a b := by
  intro m
  induction m with
  | zero => intro a b; simp
  | succ m ih =>
    intro a b
    rw [List.range_succ, List.foldl_append]
    simp only [List.foldl_cons, List.foldl_nil, Binary64.assign]
    have hne : ¬ (j - 1 = j) := by omega
    by_cases h1 : a = m ∧ b = j
    · obtain ⟨ha, hb⟩ := h1
      subst ha; subst hb
      rw [ih (a + 1) (b - 1), ih a (b - 1)]
      simp [hne]
    · rw [if_neg h1, ih a b]
      by_cases h2 : b = j ∧ a < m
      · rw [if_pos h2, if_pos ⟨h2.1, by omega⟩]
      · rw [if_neg h2, if_neg]
        rintro ⟨hb, ha⟩
        rcases Nat.lt_or_ge a m with h3 | h3
        · exact h2 ⟨hb, h3⟩
        · exact h1 ⟨by omega, hb⟩

/-- The first loop of `divided_differences` in `double` arithmetic writes `y`
into column `0`. -/
theorem binary64_dd_init_fold (y : List Binary64) :
    ∀ m a b : Nat,
      ((List.range m).foldl
        (fun (d : Nat → Nat → Binary64) (i : Nat) =>
          Binary64.assign d i 0 (y.getD i (Binary64.lit 0 1)))
        (fun _ _ => Binary64.lit 0 1)) a b
        = if b = 0 ∧ a < m then y.getD a (Binary64.lit 0 1) else Binary64.lit 0 1 := by
  intro m
  induction m with
  | zero => intro a b; simp
  | succ m ih =>
    intro a b
    rw [List.range_succ, List.foldl_append]
    simp only [List.foldl_cons, List.foldl_nil, Binary64.assign]
    by_cases h1 : a = m ∧ b = 0
    · obtain ⟨ha, hb⟩ := h1
      subst ha; subst hb
      simp
    · rw [if_neg h1, ih a b]
      by_cases h2 : b = 0 ∧ a < m
      · rw [if_pos h2, if_pos ⟨h2.1, by omega⟩]
      · rw [if_neg h2, if_neg]
        rintro ⟨hb, ha⟩
        rcases Nat.lt_or_ge a m with h3 | h3
        · exact h2 ⟨hb, h3⟩
        · exact h1 ⟨by omega, hb⟩

/-- After the columns `1 .. c` have been processed in `double` arithmetic,
column `0` holds `y` and every entry of the columns `1 .. c` inside the triangle
is the quotient of the difference of its two parents by `x[a+b] - x[a]`. -/
theorem binary64_dd_outer_fold (x y : List Binary64) :
    ∀ c : Nat, c ≤ x.length - 1 → ∀ a b : Nat, b ≤ c → a + b < x.length →
      (b = 0 →
        ((List.range' 1 c).foldl
          (fun (d : Nat → Nat → Binary64) (j : Nat) =>
            (List.range (x.length - j)).foldl
              (fun (d : Nat → Nat → Binary64) (i : Nat) =>
                Binary64.assign d i j
                  (Binary64.div (Binary64.sub (d (i + 1) (j - 1)) (d i (j - 1)))
                    (Binary64.sub (x.getD (i + j) (Binary64.lit 0 1))
                      (x.getD i (Binary64.lit 0 1)))))
              d)
          ((List.range x.length).foldl
            (fun (d : Nat → Nat → Binary64) (i : Nat) =>
              Binary64.assign d i 0 (y.getD i (Binary64.lit 0 1)))
            (fun _ _ => Binary64.lit 0 1))) a b = y.getD a (Binary64.lit 0 1))
      ∧ (1 ≤ b →
        ((List.range' 1 c).foldl
          (fun (d : Nat → Nat → Binary64) (j : Nat) =>
            (List.range (x.length - j)).foldl
              (fun (d : Nat → Nat → Binary64) (i : Nat) =>
                Binary64.assign d i j
                  (Binary64.div (Binary64.sub (d (i + 1) (j - 1)) (d i (j - 1)))
                    (Binary64.sub (x.getD (i + j) (Binary64.lit 0 1))
                      (x.getD i (Binary64.lit 0 1)))))
              d)
          ((List.range x.length).foldl
            (fun (d : Nat → Nat → Binary64) (i : Nat) =>
              Binary64.assign d i 0 (y.getD i (Binary64.lit 0 1)))
            (fun _ _ => Binary64.lit 0 1))) a b
          = Binary64.div
              (Binary64.sub
                (((List.range' 1 c).foldl
                  (fun (d : Nat → Nat → Binary64) (j : Nat) =>
                    (List.range (x.length - j)).foldl
                      (fun (d : Nat → Nat → Binary64) (i : Nat) =>
                        Binary64.assign d i j
                          (Binary64.div (Binary64.sub (d (i + 1) (j - 1)) (d i (j - 1)))
                            (Binary64.sub (x.getD (i + j) (Binary64.lit 0 1))
                              (x.getD i (Binary64.lit 0 1)))))
                      d)
                  ((List.range x.length).foldl
                    (fun (d : Nat → Nat → Binary64) (i : Nat) =>
                      Binary64.assign d i 0 (y.getD i (Binary64.lit 0 1)))
                    (fun _ _ => Binary64.lit 0 1))) (a + 1) (b - 1))
                (((List.range' 1 c).foldl
                  (fun (d : Nat → Nat → Binary64) (j : Nat) =>
                    (List.range (x.length - j)).foldl
                      (fun (d : Nat → Nat → Binary64) (i : Nat) =>
                        Binary64.assign d i j
                          (Binary64.div (Binary64.sub (d (i + 1) (j - 1)) (d i (j - 1)))
                            (Binary64.sub (x.getD (i + j) (Binary64.lit 0 1))
                              (x.getD i (Binary64.lit 0 1)))))
                      d)
                  ((List.range x.length).foldl
                    (fun (d : Nat → Nat → Binary64) (i : Nat) =>
                      Binary64.assign d i 0 (y.getD i (Binary64.lit 0 1)))
                    (fun _ _ => Binary64.lit 0 1))) a (b - 1)))
              (Binary64.sub (x.getD (a + b) (Binary64.lit 0 1)) (x.getD a (Binary64.lit 0 1)))) := by
  intro c
  induction c with
  | zero =>
    intro _ a b hb hab
    have hb0 : b = 0 := by omega
    subst hb0
    simp only [List.range'_zero, List.foldl_nil]
    refine ⟨fun _ => ?_, fun h => absurd h (by omega)⟩
    rw [binary64_dd_init_fold, if_pos ⟨rfl, by omega⟩]
  | succ c ih =>
    intro hc a b hb hab
    rw [List.range'_1_concat, List.foldl_append]
    simp only [List.foldl_cons, List.foldl_nil]
    rw [binary64_dd_inner_fold x (1 + c) (by omega), binary64_dd_inner_fold x (1 + c) (by omega),
      binary64_dd_inner_fold x (1 + c) (by omega)]
    have hf1 : ¬ (b - 1 = 1 + c ∧ a + 1 < x.length - (1 + c)) := by omega
    have hf2 : ¬ (b - 1 = 1 + c ∧ a < x.length - (1 + c)) := by omega
    rw [if_neg hf1, if_neg hf2]
    by_cases h : b = 1 + c ∧ a < x.length - (1 + c)
    · rw [if_pos h]
      obtain ⟨hb1, ha⟩ := h
      subst hb1
      refine ⟨fun h0 => absurd h0 (by omega), fun _ => rfl⟩
    · rw [if_neg h]
      have hbc : b ≤ c := by
        rcases Nat.lt_or_ge c b with h3 | h3
        · exact absurd ⟨by omega, by omega⟩ h
        · exact h3
      exact ih (by omega) a b hbc hab

/-- The difference of a `double` with itself is a NaN or the zero `+0`. -/
theorem binary64_sub_self (a : Binary64) :
    Binary64.sub a a = Binary64.nan ∨ Binary64.sub a a = Binary64.fin false 0 (-1074) := by
  cases a with
  | nan => left; rfl
  | inf s => left; cases s <;> rfl
  | fin s m e =>
    right
    cases s <;> simp [Binary64.sub, Binary64.neg, Binary64.add, Binary64.signed]

/-- A quotient by a NaN or by the zero `+0` is not finite. -/
theorem binary64_div_zero_not_finite (x z : Binary64)
    (hz : z = Binary64.nan ∨ z = Binary64.fin false 0 (-1074)) :
    Binary64.isfinite (Binary64.div x z) = false := by
  rcases hz with hz | hz
  · subst hz
    cases x <;> rfl
  · subst hz
    cases x with
    | nan => rfl
    | inf s => rfl
    | fin s m e =>
      by_cases hm : m = 0
      · subst hm
        rfl
      · simp [Binary64.div, hm, Binary64.isfinite]

end DoubleDividedDifferences

section DividedDifferenceDivisors

variable {K : Type} [LinearOrderedField K]

/-- A list with a repeated value has two positions `a < b` holding it. -/
theorem exists_equal_of_not_nodup (x : List K) (hx : ¬ x.Nodup) :
    ∃ a b : Nat, a < b ∧ b < x.length ∧ x.getD a 0 = x.getD b 0 := by
  by_contra hcon
  apply hx
  rw [List.Nodup, List.pairwise_iff_getElem]
  intro a b ha hb hab heq
  apply hcon
  refine ⟨a, b, hab, hb, ?_⟩
  rw [List.getD_eq_getElem x 0 ha, List.getD_eq_getElem x 0 hb]
  exact heq

/-- C15 (amended): `divided_differences` sets `diff[i][0] = ys[i]` and divides by
`xs[i+j] - xs[i]` for every `1 ≤ j < n` and `0 ≤ i < n - j`. In exact arithmetic,
for pairwise distinct `xs` none of these divisors is zero and `diff[i][j]` is
`(diff[i+1][j-1] - diff[i][j-1]) / (xs[i+j] - xs[i])`, and if `xs` contains two
equal values then one of these divisors is zero. In the `double` arithmetic of
the code the same quotient is formed for every input, without a check: where
`xs[i+j] = xs[i]` the entry `diff[i][j]` is an infinity or a NaN, not an error. -/
theorem divided_differences_divisor_spec (xs : List K) (ds : List Binary64) :
    (∀ (ys : List K) (i : Nat), i < xs.length → divided_differences xs ys i 0 = ys.getD i 0)
      ∧ (xs.Nodup → ∀ (ys : List K) (i j : Nat), 1 ≤ j → j < xs.length → i < xs.length - j →
          xs.getD (i + j) 0 - xs.getD i 0 ≠ 0
          ∧ divided_differences xs ys i j
            = (divided_differences xs ys (i + 1) (j - 1) - divided_differences xs ys i (j - 1))
              / (xs.getD (i + j) 0 - xs.getD i 0))
      ∧ (¬ xs.Nodup → ∃ i j : Nat, 1 ≤ j ∧ j < xs.length ∧ i < xs.length - j
          ∧ xs.getD (i + j) 0 - xs.getD i 0 = 0)
      ∧ (∀ (es : List Binary64) (i j : Nat), 1 ≤ j → j < ds.length → i < ds.length - j →
          Binary64.divided_differences ds es i j
            = Binary64.div
                (Binary64.sub (Binary64.divided_differences ds es (i + 1) (j - 1))
                  (Binary64.divided_differences ds es i (j - 1)))
                (Binary64.sub (ds.getD (i + j) (Binary64.lit 0 1)) (ds.getD i (Binary64.lit 0 1)))
          ∧ (ds.getD (i + j) (Binary64.lit 0 1) = ds.getD i (Binary64.lit 0 1) →
              Binary64.isfinite (Binary64.divided_differences ds es i j) = false)) := by
  refine ⟨?_, ?_, ?_, ?_⟩
  · intro ys i hi
    rw [divided_differences_eq_ddRec xs ys i 0 (by omega)]
    simp only [ddRec]
  · intro hd ys i j h1 h2 h3
    refine ⟨sub_ne_zero.mpr
      (Ne.symm (nodup_getD_ne xs hd i (i + j) (by omega) (by omega))), ?_⟩
    obtain ⟨q, rfl⟩ : ∃ q, j = q + 1 := ⟨j - 1, by omega⟩
    rw [divided_differences_eq_ddRec xs ys i (q + 1) (by omega), Nat.add_sub_cancel,
      divided_differences_eq_ddRec xs ys (i + 1) q (by omega),
      divided_differences_eq_ddRec xs ys i q (by omega)]
    simp only [ddRec]
    rw [Nat.add_assoc]
  · intro hd
    obtain ⟨a, b, hab, hb, heq⟩ := exists_equal_of_not_nodup xs hd
    refine ⟨a, b - a, by omega, by omega, by omega, ?_⟩
    have e : a + (b - a) = b := by omega
    rw [e, heq, sub_self]
  · intro es i j h1 h2 h3
    have hrec : Binary64.divided_differences ds es i j
        = Binary64.div
            (Binary64.sub (Binary64.divided_differences ds es (i + 1) (j - 1))
              (Binary64.divided_differences ds es i (j - 1)))
            (Binary64.sub (ds.getD (i + j) (Binary64.lit 0 1))
              (ds.getD i (Binary64.lit 0 1))) :=
      (binary64_dd_outer_fold ds es (ds.length - 1) (le_refl _) i j (by omega) (by omega)).2 h1
    refine ⟨hrec, ?_⟩
    intro heq
    rw [hrec, heq]
    exact binary64_div_zero_not_finite _ _ (binary64_sub_self _)

/-- C15 (amended) on the distinct abscissae `1, 2, 4` with the ordinates
`3, 5, 2` in exact arithmetic, and on the repeated abscissae `1, 1` with the
ordinates `1, 2` in `double` arithmetic. -/
theorem divided_differences_divisor_spec_witness :
    (([1, 2, 4] : List ℚ).getD (0 + 2) 0 - ([1, 2, 4] : List ℚ).getD 0 0 ≠ 0
      ∧ divided_differences ([1, 2, 4] : List ℚ) [3, 5, 2] 0 2
        = (divided_differences ([1, 2, 4] : List ℚ) [3, 5, 2] (0 + 1) (2 - 1)
            - divided_differences ([1, 2, 4] : List ℚ) [3, 5, 2] 0 (2 - 1))
          / (([1, 2, 4] : List ℚ).getD (0 + 2) 0 - ([1, 2, 4] : List ℚ).getD 0 0))
      ∧ Binary64.isfinite
          (Binary64.divided_differences [Binary64.lit 1 1, Binary64.lit 1 1]
            [Binary64.lit 1 1, Binary64.lit 2 1] 0 1) = false :=
  ⟨(divided_differences_divisor_spec ([1, 2, 4] : List ℚ) []).2.1 (by simp) [3, 5, 2] 0 2
      (by decide) (by decide) (by decide),
    ((divided_differences_divisor_spec ([] : List ℚ) [Binary64.lit 1 1, Binary64.lit 1 1]).2.2.2
      [Binary64.lit 1 1, Binary64.lit 2 1] 0 1 (by decide) (by decide) (by decide)).2 rfl⟩

end DividedDifferenceDivisors

section SeriesInvalidCount

variable {K : Type} [LinearOrderedField K]

/-- C16 (amended): for every function kind, every `t` and every `n_terms < 1`
the series evaluator rejects nothing and runs no loop iteration: the `sin`
branch returns `t`, which is also its value at `n_terms = 1`, and the `exp`
branch (every kind other than `"sin"`) returns `1`, while its value at
`n_terms = 1` is `1 + t`. -/
theorem maclaurin_sum_nonpositive_count (function_type : String) (t : K) (n_terms : Int)
    (h : n_terms < 1) :
    (function_type = "sin" →
        maclaurin_sum function_type t n_terms = t ∧ maclaurin_sum function_type t 1 = t)
      ∧ (function_type ≠ "sin" →
        maclaurin_sum function_type t n_terms = 1 ∧ maclaurin_sum function_type t 1 = 1 + t) := by
  have h0 : n_terms.toNat = 0 := by omega
  have h1 : Int.toNat 1 = 1 := rfl
  constructor
  · intro hk
    unfold maclaurin_sum
    rw [if_pos hk, if_pos hk, h0, h1]
    simp [maclaurin_sin_loop]
  · intro hk
    unfold maclaurin_sum
    rw [if_neg hk, if_neg hk, h0, h1]
    simp

/-- C16 (amended) for the `exp` branch at `t = 1` and `n_terms = 0`. -/
theorem maclaurin_sum_nonpositive_count_witness :
    ("exp" = "sin" →
        maclaurin_sum "exp" (1 : ℚ) 0 = 1 ∧ maclaurin_sum "exp" (1 : ℚ) 1 = 1)
      ∧ ("exp" ≠ "sin" →
        maclaurin_sum "exp" (1 : ℚ) 0 = 1 ∧ maclaurin_sum "exp" (1 : ℚ) 1 = 1 + 1) :=
  maclaurin_sum_nonpositive_count "exp" 1 0 (by decide)

/-- C16 fails as stated: for the `exp` branch at `t = 1` and `n_terms = 0 < 1`
the evaluator returns `1`, not its value `2` at `n_terms = 1`. -/
theorem maclaurin_sum_nonpositive_count_counterexample :
    (0 : Int) < 1 ∧ maclaurin_sum "exp" (1 : ℚ) 0 ≠ maclaurin_sum "exp" (1 : ℚ) 1 := by
  refine ⟨by decide, ?_⟩
  have h0 := maclaurin_sum_exp_eq (1 : ℚ) 0
  have h1 := maclaurin_sum_exp_eq (1 : ℚ) 1
  simp only [Nat.cast_zero, Nat.cast_one] at h0 h1
  rw [h0, h1]
  norm_num [Finset.sum_range_succ]

end SeriesInvalidCount

section Population

variable {K : Type} [LinearOrderedField K]

theorem years_length : (years : List K).length = 10 := rfl

theorem years_nodup : (years : List K).Nodup := by
  unfold years
  simp only [List.nodup_cons, List.mem_cons, List.mem_singleton, List.not_mem_nil,
    List.nodup_nil]
  norm_num

/-- The Newton polynomial through the ten population points, evaluated by
`newton_interpolation` at `2010`, in exact arithmetic. -/
theorem population_newton_2010 :
    newton_interpolation (2010 : K) years (divided_differences years population)
      = 827906509 := by
  rw [newton_interpolation_eq_newtonPoly (2010 : K) years population (by rw [years_length]; decide),
    years_length]
  unfold newtonPoly
  norm_num [ddRec, years, population, Finset.sum_range_succ, Finset.prod_range_succ]

/-- The linear spline through the ten population points, evaluated by
`linear_spline` at `2010`, in exact arithmetic. -/
theorem population_spline_2010 :
    linear_spline (2010 : K) years population = 314133939 := by
  unfold linear_spline
  have hx : (2010 : K) > (years : List K).getD ((years : List K).length - 1) 0 := by
    norm_num [years]
  simp only [if_pos hx]
  norm_num [years, population]

/-- C17: on the ten-point population data set no division by zero occurs, neither
in `divided_differences` (every divisor `years[i+j] - years[i]` with `1 ≤ j < 10`,
`i < 10 - j` is non-zero) nor in `linear_spline` at `2010` (the divisor
`years[9] - years[8]` is non-zero), so both values at `2010` are numbers of the
field, and the Newton extrapolation differs from the spline extrapolation. -/
theorem population_extrapolations_differ :
    (∀ i j : Nat, 1 ≤ j → j < 10 → i < 10 - j →
        (years : List K).getD (i + j) 0 - (years : List K).getD i 0 ≠ 0)
      ∧ (years : List K).getD 9 0 - (years : List K).getD 8 0 ≠ 0
      ∧ linear_spline (2010 : K) years population
          = (population : List K).getD 8 0
            + ((population : List K).getD 9 0 - (population : List K).getD 8 0)
              * (2010 - (years : List K).getD 8 0)
              / ((years : List K).getD 9 0 - (years : List K).getD 8 0)
      ∧ newton_interpolation (2010 : K) years (divided_differences years population)
          ≠ linear_spline (2010 : K) years population := by
  refine ⟨?_, ?_, ?_, ?_⟩
  · intro i j h1 h2 h3
    exact sub_ne_zero.mpr
      (Ne.symm (nodup_getD_ne years years_nodup i (i + j) (by omega)
        (by rw [years_length]; omega)))
  · norm_num [years]
  · rw [population_spline_2010]
    norm_num [years, population]
  · rw [population_newton_2010, population_spline_2010]
    norm_num

end Population

section RangeReduction

end RangeReduction

section ExpReduction

/-- The halving loop of `improved_exp` exits after exactly `j` halvings when `j`
is the least count with `r / 2^j ≤ 1` and at least `j` iterations are allowed. -/
theorem improved_exp_reduce_least :
    ∀ (fuel : Nat) (r : ℝ) (k0 j : Nat), r / 2 ^ j ≤ 1 → (∀ i : Nat, i < j → 1 < r / 2 ^ i) →
      j ≤ fuel → improved_exp_reduce fuel r k0 = some (r / 2 ^ j, k0 + j) := by
  intro fuel
  induction fuel with
  | zero =>
    intro r k0 j hj _ hfuel
    have hj0 : j = 0 := by omega
    subst hj0
    simp only [pow_zero, div_one] at hj
    simp only [improved_exp_reduce, if_neg (not_lt.mpr hj), pow_zero, div_one, Nat.add_zero]
  | succ fuel ih =>
    intro r k0 j hj hmin hfuel
    by_cases hr : r > 1
    · cases j with
      | zero =>
        simp only [pow_zero, div_one] at hj
        exact absurd hr (not_lt.mpr hj)
      | succ j =>
        have e : ∀ i : Nat, r / 2 / 2 ^ i = r / 2 ^ (i + 1) := by
          intro i
          rw [pow_succ, div_div, mul_comm]
        simp only [improved_exp_reduce, if_pos hr]
        rw [ih (r / 2) (k0 + 1) j (by rw [e]; exact hj)
          (fun i hi => by rw [e]; exact hmin (i + 1) (by omega)) (by omega), e]
        have e2 : k0 + 1 + j = k0 + (j + 1) := by omega
        rw [e2]
    · have hj0 : j = 0 := by
        by_contra hne
        have := hmin 0 (by omega)
        simp only [pow_zero, div_one] at this
        exact hr this
      subst hj0
      simp only [improved_exp_reduce, if_neg hr, pow_zero, div_one, Nat.add_zero]

/-- C20: for every real `t` the halving loop of `improved_exp` terminates: with
`k` the least natural number such that `t / 2^k ≤ 1`, every iteration bound
`fuel ≥ k` gives the result `maclaurin_sum "exp" (t / 2^k) 15 ^ (2^k)`; and
`k = 0` (no reduction) for every `t ≤ 1`, negative `t` included. -/
theorem improved_exp_terminates (t : ℝ) :
    ∃ k : Nat, t / 2 ^ k ≤ 1 ∧ (∀ i : Nat, i < k → ¬ t / 2 ^ i ≤ 1)
      ∧ (∀ fuel : Nat, k ≤ fuel →
          improved_exp fuel t = some (maclaurin_sum "exp" (t / 2 ^ k) 15 ^ (2 ^ k)))
      ∧ (t ≤ 1 → k = 0) := by
  classical
  have hex : ∃ k : Nat, t / 2 ^ k ≤ 1 := by
    obtain ⟨n, hn⟩ := pow_unbounded_of_one_lt t (by norm_num : (1 : ℝ) < 2)
    refine ⟨n, ?_⟩
    rw [div_le_one (by positivity)]
    exact le_of_lt hn
  refine ⟨Nat.find hex, Nat.find_spec hex, fun i hi => Nat.find_min hex hi, ?_, ?_⟩
  · intro fuel hfuel
    unfold improved_exp
    rw [improved_exp_reduce_least fuel t 0 (Nat.find hex) (Nat.find_spec hex)
      (fun i hi => not_le.mp (Nat.find_min hex hi)) hfuel]
    simp only []
    rw [improved_exp_square_fold, Nat.zero_add]
  · intro ht
    rw [Nat.find_eq_zero]
    simpa using ht

end ExpReduction

section TermCountCap

variable {K : Type} [LinearOrderedField K]

end TermCountCap

section TermCountCapExample

end TermCountCapExample

section SplineLeft

variable {K : Type} [LinearOrderedField K]

/-- C28: for every strictly increasing `xs` of length `n ≥ 2` and every
`x_point < xs[0]`, the scan of `linear_spline` finds no interval, `interval`
stays `0`, and the result extrapolates along the first interval:
`ys[0] + (ys[1] - ys[0]) * (x_point - xs[0]) / (xs[1] - xs[0])`. -/
theorem linear_spline_extrapolates_left (xs ys : List K) (x_point : K)
    (hn : 2 ≤ xs.length) (hs : xs.Sorted (· < ·)) (hx : x_point < xs.getD 0 0) :
    (List.range (xs.length - 1)).find?
        (fun (i : Nat) => decide (x_point ≥ xs.getD i 0 ∧ x_point ≤ xs.getD (i + 1) 0)) = none
      ∧ linear_spline x_point xs ys
        = ys.getD 0 0
          + (ys.getD 1 0 - ys.getD 0 0) * (x_point - xs.getD 0 0)
            / (xs.getD 1 0 - xs.getD 0 0) := by
  have hlt := sorted_getD_lt xs hs
  have hge : ∀ i : Nat, i < xs.length → xs.getD 0 0 ≤ xs.getD i 0 := by
    intro i hi
    rcases Nat.eq_zero_or_pos i with h | h
    · rw [h]
    · exact le_of_lt (hlt 0 i h hi)
  have hnone : (List.range (xs.length - 1)).find?
      (fun (i : Nat) => decide (x_point ≥ xs.getD i 0 ∧ x_point ≤ xs.getD (i + 1) 0))
      = none := by
    rw [List.find?_range_eq_none]
    intro i hi
    have h1 := hge i (by omega)
    simp only [Bool.not_eq_true', decide_eq_false_iff_not, not_and, ge_iff_le]
    intro h2
    exact absurd (lt_of_lt_of_le hx h1) (not_lt.mpr h2)
  refine ⟨hnone, ?_⟩
  have hlast : ¬ x_point > xs.getD (xs.length - 1) 0 :=
    not_lt.mpr (le_of_lt (lt_of_lt_of_le hx (hge (xs.length - 1) (by omega))))
  unfold linear_spline
  simp only [hnone, if_neg hlast, Option.getD_none, Nat.zero_add]

/-- C28 at the breakpoints `1, 2, 4` with ordinates `3, 5, 2` and the point `0`. -/
theorem linear_spline_extrapolates_left_witness :
    (List.range (([1, 2, 4] : List ℚ).length - 1)).find?
        (fun (i : Nat) =>
          decide ((0 : ℚ) ≥ ([1, 2, 4] : List ℚ).getD i 0
            ∧ (0 : ℚ) ≤ ([1, 2, 4] : List ℚ).getD (i + 1) 0)) = none
      ∧ linear_spline (0 : ℚ) [1, 2, 4] [3, 5, 2]
        = ([3, 5, 2] : List ℚ).getD 0 0
          + (([3, 5, 2] : List ℚ).getD 1 0 - ([3, 5, 2] : List ℚ).getD 0 0)
            * (0 - ([1, 2, 4] : List ℚ).getD 0 0)
            / (([1, 2, 4] : List ℚ).getD 1 0 - ([1, 2, 4] : List ℚ).getD 0 0) :=
  linear_spline_extrapolates_left [1, 2, 4] [3, 5, 2] 0 (by simp)
    (by simp only [List.Sorted, List.pairwise_cons, List.mem_cons, List.mem_singleton,
          List.not_mem_nil, List.Pairwise.nil]
        norm_num)
    (by simp only [List.getD_cons_zero]
        norm_num)

end SplineLeft

section NewtonSymmetry

/-- The loop of `newton_method` commutes with the change of sign of the
iterate, for the real `tan` and `cos`. -/
theorem newton_method_loop_neg (epsilon : ℝ) :
    ∀ (fuel : Nat) (x : ℝ),
      newton_method_loop Real.tan Real.cos epsilon fuel (-x)
        = -newton_method_loop Real.tan Real.cos epsilon fuel x := by
  intro fuel
  induction fuel with
  | zero =>
    intro x
    simp only [newton_method_loop]
  | succ fuel ih =>
    intro x
    have hF : newton_F Real.tan (-x) = newton_F Real.tan x := by
      unfold newton_F
      rw [Real.tan_neg]
      ring
    have hdF : newton_dF Real.tan Real.cos (-x) = -newton_dF Real.tan Real.cos x := by
      unfold newton_dF
      rw [Real.tan_neg, Real.cos_neg]
      ring
    have hstep : -x - newton_F Real.tan x / -newton_dF Real.tan Real.cos x
        = -(x - newton_F Real.tan x / newton_dF Real.tan Real.cos x) := by
      rw [div_neg]
      ring
    have habs : |(-(x - newton_F Real.tan x / newton_dF Real.tan Real.cos x)) - -x|
        = |x - newton_F Real.tan x / newton_dF Real.tan Real.cos x - x| := by
      rw [← abs_neg]
      congr 1
      ring
    rw [newton_method_loop_succ, newton_method_loop_succ, hF, hdF, abs_neg, hstep, habs, ih]
    split_ifs <;> rfl

/-- C26: `newton_method` is odd in its starting point: for every `x0`, `epsilon`
and `max_iterations`, `newton_method (-x0) = -newton_method x0` (the real `tan`
is odd and the real `cos` is even, so `F` is even, its derivative is odd, and
every iterate and every test mirrors). -/
theorem newton_method_odd (x0 epsilon : ℝ) (max_iterations : Int) :
    newton_method Real.tan Real.cos (-x0) epsilon max_iterations
      = -newton_method Real.tan Real.cos x0 epsilon max_iterations := by
  unfold newton_method
  exact newton_method_loop_neg epsilon max_iterations.toNat x0

end NewtonSymmetry

section PopulationComparison

variable {K : Type} [LinearOrderedField K]

/-- C27: on the ten-point population data set, in exact arithmetic,
`newton_interpolation` at `2010` is `827906509` and `linear_spline` at `2010` is
`314133939`; against the actual value `308745538` the absolute error of the
spline is `5388401`, that of the Newton polynomial is `519160971`, the former is
the smaller, and the comparison of `main` names the spline. -/
theorem population_comparison :
    (newton_2010 : K) = 827906509
      ∧ (spline_2010 : K) = 314133939
      ∧ (actual_2010 : K) = 308745538
      ∧ (spline_error : K) = 5388401
      ∧ (newton_error : K) = 519160971
      ∧ (spline_error : K) < newton_error
      ∧ more_accurate_method K = "СПЛАЙН-АППРОКСИМАЦИЯ" := by
  have hN : (newton_2010 : K) = 827906509 := population_newton_2010
  have hS : (spline_2010 : K) = 314133939 := population_spline_2010
  have hsE : (spline_error : K) = 5388401 := by
    unfold spline_error
    rw [hS]
    unfold actual_2010
    norm_num
  have hnE : (newton_error : K) = 519160971 := by
    unfold newton_error
    rw [hN]
    unfold actual_2010
    norm_num
  have hlt : (spline_error : K) < newton_error := by
    rw [hsE, hnE]
    norm_num
  refine ⟨hN, hS, rfl, hsE, hnE, hlt, ?_⟩
  unfold more_accurate_method
  rw [if_neg (not_lt.mpr (le_of_lt hlt))]

end PopulationComparison

section TermCountStart

/-- C23 at the failing input `("sin", 0, 0.001)`: the search starts at the count
`1`, whose sum `t = 0` already meets the target, and `find_optimal_n` returns
`1`, which is odd but not `≥ 3`. -/
theorem find_optimal_n_starts_at_one :
    find_optimal_n Real.sin Real.exp "sin" (0 : ℝ) 0.001 = 1
      ∧ |Real.sin 0 - maclaurin_sum "sin" (0 : ℝ) 1| ≤ 0.001
      ∧ ¬ (3 : Int) ≤ 1 := by
  have hm1 : maclaurin_sum "sin" (0 : ℝ) 1 = 0 := by
    have h := maclaurin_sum_sin_eq (0 : ℝ) 1 (by norm_num)
    simp only [Nat.cast_one] at h
    rw [h]
    norm_num [sinTerm]
  have herr : |Real.sin 0 - maclaurin_sum "sin" (0 : ℝ) 1| ≤ 0.001 := by
    rw [hm1, Real.sin_zero]
    norm_num
  refine ⟨?_, herr, by norm_num⟩
  unfold find_optimal_n
  simp only [if_pos]
  have h50 : Int.toNat 50 = 49 + 1 := by decide
  rw [h50]
  simp only [find_optimal_n_loop]
  rw [if_pos ⟨by norm_num, by norm_num⟩, if_pos herr]

end TermCountStart

section NewtonUniqueness

variable {K : Type} [LinearOrderedField K]

end NewtonUniqueness

section CompositePanels

variable {K : Type} [LinearOrderedField K]

/-- The weighted sum of `simpson_method` over `2(m+1)` intervals is the sum of
the `m + 1` panels `f(x) + 4 f(x + h) + f(x + 2h)`. -/
theorem simpson_panels (f : K → K) (a h : K) :
    ∀ m : Nat,
      f a + f (a + ((2 * (m + 1) : Nat) : K) * h)
          + ∑ i in range (2 * (m + 1) - 1),
              (if (1 + i) % 2 = 0 then (2 : K) else 4) * f (a + ((1 + i : Nat) : K) * h)
        = ∑ p in range (m + 1),
            (f (a + ((2 * p : Nat) : K) * h) + 4 * f (a + ((2 * p + 1 : Nat) : K) * h)
              + f (a + ((2 * p + 2 : Nat) : K) * h)) := by
  intro m
  induction m with
  | zero =>
    simp only [Nat.zero_add, Nat.mul_one, Finset.sum_range_one, Nat.mul_zero,
      Nat.cast_zero, zero_mul, add_zero]
    norm_num
    ring
  | succ m ih =>
    rw [Finset.sum_range_succ _ (m + 1), ← ih]
    have e : 2 * (m + 1 + 1) - 1 = (2 * (m + 1) - 1) + 1 + 1 := by omega
    rw [e, Finset.sum_range_succ, Finset.sum_range_succ]
    have h1 : (1 + (2 * (m + 1) - 1)) % 2 = 0 := by omega
    have h2 : ¬ (1 + (2 * (m + 1) - 1 + 1)) % 2 = 0 := by omega
    rw [if_pos h1, if_neg h2]
    have e1 : 1 + (2 * (m + 1) - 1) = 2 * (m + 1) := by omega
    have e2 : 1 + (2 * (m + 1) - 1 + 1) = 2 * (m + 1) + 1 := by omega
    have e3 : 2 * (m + 1 + 1) = 2 * (m + 1) + 2 := by omega
    rw [e1, e2, e3]
    ring

/-- The antiderivative `c₀ x + c₁ x²/2 + ... + c₄ x⁵/5` of the quartic with the
coefficients `c 0 .. c 4`, from the closed form of the integral of a power. -/
theorem quartic_primitive_eq (c : Nat → K) (a b : K) :
    ∑ k in range 5, c k * ((b ^ (k + 1) - a ^ (k + 1)) / ((k : K) + 1))
      = (c 0 * b + c 1 * b ^ 2 / 2 + c 2 * b ^ 3 / 3 + c 3 * b ^ 4 / 4 + c 4 * b ^ 5 / 5)
        - (c 0 * a + c 1 * a ^ 2 / 2 + c 2 * a ^ 3 / 3 + c 3 * a ^ 4 / 4 + c 4 * a ^ 5 / 5) := by
  simp only [Finset.sum_range_succ, Finset.sum_range_zero]
  norm_num
  ring

/-- `simpson_method` at the even count `2(m+1)` as a sum of panels. -/
theorem simpson_method_eq_panels (f : K → K) (a b : K) (m : Nat) :
    simpson_method f a b (2 * (m + 1))
      = (∑ p in range (m + 1),
          (f (a + ((2 * p : Nat) : K) * ((b - a) / ((2 * (m + 1) : Nat) : K)))
            + 4 * f (a + ((2 * p + 1 : Nat) : K) * ((b - a) / ((2 * (m + 1) : Nat) : K)))
            + f (a + ((2 * p + 2 : Nat) : K) * ((b - a) / ((2 * (m + 1) : Nat) : K)))))
        * ((b - a) / ((2 * (m + 1) : Nat) : K)) / 3 := by
  have hne : ((2 * (m + 1) : Nat) : K) ≠ 0 := by
    exact_mod_cast (by omega : 2 * (m + 1) ≠ 0)
  have hb : a + ((2 * (m + 1) : Nat) : K) * ((b - a) / ((2 * (m + 1) : Nat) : K)) = b := by
    field_simp
  rw [simpson_method_eq_sum f a b _ (by omega), ← simpson_panels, hb]

/-- `simpson_method` on a quartic, for an even count `2(m+1)`: the exact integral
plus `(2/15) c₄ (b - a)^5 / n^4`. -/
theorem simpson_method_quartic (c : Nat → K) (a b : K) (m : Nat) :
    simpson_method (fun x => ∑ k in range 5, c k * x ^ k) a b (2 * (m + 1))
      = ∑ k in range 5, c k * ((b ^ (k + 1) - a ^ (k + 1)) / ((k : K) + 1))
        + 2 / 15 * c 4 * (b - a) ^ 5 / ((2 * (m + 1) : Nat) : K) ^ 4 := by
  have hne : ((2 * (m + 1) : Nat) : K) ≠ 0 := by
    exact_mod_cast (by omega : 2 * (m + 1) ≠ 0)
  have hb : a + ((2 * (m + 1) : Nat) : K) * ((b - a) / ((2 * (m + 1) : Nat) : K)) = b := by
    field_simp
  rw [simpson_method_eq_panels]
  generalize hh : (b - a) / ((2 * (m + 1) : Nat) : K) = h at hb ⊢
  have hpanel : ∀ p : Nat,
      (∑ k in range 5, c k * (a + ((2 * p : Nat) : K) * h) ^ k
          + 4 * ∑ k in range 5, c k * (a + ((2 * p + 1 : Nat) : K) * h) ^ k
          + ∑ k in range 5, c k * (a + ((2 * p + 2 : Nat) : K) * h) ^ k) * h / 3
        = ((c 0 * (a + ((2 * (p + 1) : Nat) : K) * h)
              + c 1 * (a + ((2 * (p + 1) : Nat) : K) * h) ^ 2 / 2
              + c 2 * (a + ((2 * (p + 1) : Nat) : K) * h) ^ 3 / 3
              + c 3 * (a + ((2 * (p + 1) : Nat) : K) * h) ^ 4 / 4
              + c 4 * (a + ((2 * (p + 1) : Nat) : K) * h) ^ 5 / 5)
            - (c 0 * (a + ((2 * p : Nat) : K) * h)
              + c 1 * (a + ((2 * p : Nat) : K) * h) ^ 2 / 2
              + c 2 * (a + ((2 * p : Nat) : K) * h) ^ 3 / 3
              + c 3 * (a + ((2 * p : Nat) : K) * h) ^ 4 / 4
              + c 4 * (a + ((2 * p : Nat) : K) * h) ^ 5 / 5))
          + 4 / 15 * c 4 * h ^ 5 := by
    intro p
    simp only [Finset.sum_range_succ, Finset.sum_range_zero]
    push_cast
    ring
  have htel := Finset.sum_range_sub
    (fun p : Nat => c 0 * (a + ((2 * p : Nat) : K) * h)
      + c 1 * (a + ((2 * p : Nat) : K) * h) ^ 2 / 2
      + c 2 * (a + ((2 * p : Nat) : K) * h) ^ 3 / 3
      + c 3 * (a + ((2 * p : Nat) : K) * h) ^ 4 / 4
      + c 4 * (a + ((2 * p : Nat) : K) * h) ^ 5 / 5) (m + 1)
  simp only [Nat.mul_zero, Nat.cast_zero, zero_mul, add_zero, hb] at htel
  rw [Finset.sum_mul, Finset.sum_div, Finset.sum_congr rfl (fun p _ => hpanel p),
    Finset.sum_add_distrib, htel, quartic_primitive_eq]
  simp only [Finset.sum_const, Finset.card_range, nsmul_eq_mul]
  rw [← hh]
  field_simp
  ring

end CompositePanels

section ExactIntegrals

/-- `simpson_method` on `x ↦ x^4` at an even count `2(m+1)`: the exact integral
plus `(2/15) (b - a)^5 / n^4`. -/
theorem simpson_method_fourth_power (a b : ℝ) (m : Nat) :
    simpson_method (fun x => x ^ 4) a b (2 * (m + 1))
      = (b ^ 5 - a ^ 5) / 5 + 2 / 15 * (b - a) ^ 5 / ((2 * (m + 1) : Nat) : ℝ) ^ 4 := by
  have h := simpson_method_quartic (fun k => if k = 4 then (1 : ℝ) else 0) a b m
  have e : (fun x : ℝ => ∑ k in range 5, (if k = 4 then (1 : ℝ) else 0) * x ^ k)
      = fun x : ℝ => x ^ 4 := by
    funext x
    simp [Finset.sum_range_succ]
  rw [e] at h
  rw [h]
  simp [Finset.sum_range_succ]
  norm_num

/-- C22: for the integrand `x ↦ x^4` (a parameter of the rule), every `a`, `b`
and every even `n ≥ 2`, with `S(m) = simpson_method a b m`: halving the step
divides the Runge estimate of order `4` by exactly `16`,
`runge_error (S n) (S 2n) 4 = 16 * runge_error (S 2n) (S 4n) 4`, and the estimate
`runge_error (S n) (S 2n) 4` equals the true error `|S(2n) - ∫ x^4|`. -/
theorem simpson_runge_fourth_power (a b : ℝ) (n : Nat) (hn : 2 ≤ n) (he : n % 2 = 0) :
    runge_error (simpson_method (fun x => x ^ 4) a b n)
        (simpson_method (fun x => x ^ 4) a b (2 * n)) 4
      = 16 * runge_error (simpson_method (fun x => x ^ 4) a b (2 * n))
          (simpson_method (fun x => x ^ 4) a b (4 * n)) 4
    ∧ runge_error (simpson_method (fun x => x ^ 4) a b n)
        (simpson_method (fun x => x ^ 4) a b (2 * n)) 4
      = |simpson_method (fun x => x ^ 4) a b (2 * n) - ∫ x in a..b, x ^ 4| := by
  have e1 : n = 2 * ((n / 2 - 1) + 1) := by omega
  have e2 : 2 * n = 2 * ((n - 1) + 1) := by omega
  have e4 : 4 * n = 2 * ((2 * n - 1) + 1) := by omega
  have h1 := simpson_method_fourth_power a b (n / 2 - 1)
  have h2 := simpson_method_fourth_power a b (n - 1)
  have h4 := simpson_method_fourth_power a b (2 * n - 1)
  rw [← e1] at h1
  rw [← e2] at h2
  rw [← e4] at h4
  have hnpos : (0 : ℝ) < (n : ℝ) := by exact_mod_cast (by omega : 0 < n)
  have hN : (0 : ℝ) < (n : ℝ) ^ 4 := by positivity
  rw [h1, h2, h4, integral_pow]
  unfold runge_error
  push_cast
  have d1 : (b ^ 5 - a ^ 5) / 5 + 2 / 15 * (b - a) ^ 5 / (n : ℝ) ^ 4
      - ((b ^ 5 - a ^ 5) / 5 + 2 / 15 * (b - a) ^ 5 / (2 * (n : ℝ)) ^ 4)
      = (b - a) ^ 5 / (8 * (n : ℝ) ^ 4) := by
    field_simp
    ring
  have d2 : (b ^ 5 - a ^ 5) / 5 + 2 / 15 * (b - a) ^ 5 / (2 * (n : ℝ)) ^ 4
      - ((b ^ 5 - a ^ 5) / 5 + 2 / 15 * (b - a) ^ 5 / (4 * (n : ℝ)) ^ 4)
      = (b - a) ^ 5 / (8 * (n : ℝ) ^ 4) / 16 := by
    field_simp
    ring
  have hz : ((2 : ℝ) ^ (4 : Int) - 1) = 15 := by norm_num
  have d3 : (b ^ 5 - a ^ 5) / 5 + 2 / 15 * (b - a) ^ 5 / (2 * (n : ℝ)) ^ 4
      - (b ^ 5 - a ^ 5) / (4 + 1)
      = (b - a) ^ 5 / (8 * (n : ℝ) ^ 4) / 15 := by
    field_simp
    ring
  rw [d1, d2, d3, hz]
  generalize (b - a) ^ 5 / (8 * (n : ℝ) ^ 4) = X
  rw [abs_div, abs_div, abs_of_pos (by norm_num : (0 : ℝ) < 16),
    abs_of_pos (by norm_num : (0 : ℝ) < 15)]
  constructor <;> ring

/-- C22 over `[0, 1]` with `n = 2`. -/
theorem simpson_runge_fourth_power_witness :
    runge_error (simpson_method (fun x : ℝ => x ^ 4) 0 1 2)
        (simpson_method (fun x : ℝ => x ^ 4) 0 1 (2 * 2)) 4
      = 16 * runge_error (simpson_method (fun x : ℝ => x ^ 4) 0 1 (2 * 2))
          (simpson_method (fun x : ℝ => x ^ 4) 0 1 (4 * 2)) 4
    ∧ runge_error (simpson_method (fun x : ℝ => x ^ 4) 0 1 2)
        (simpson_method (fun x : ℝ => x ^ 4) 0 1 (2 * 2)) 4
      = |simpson_method (fun x : ℝ => x ^ 4) 0 1 (2 * 2) - ∫ x in (0 : ℝ)..1, x ^ 4| :=
  simpson_runge_fourth_power 0 1 2 (le_refl 2) (by decide)

end ExactIntegrals

section GaussExactness

end GaussExactness

section GaussFour

end GaussFour

section DoubleArithmetic

set_option maxRecDepth 20000

/-- C12 fails as stated in the `double` arithmetic of the code: `pow(2, 1024)` is
an infinity, so `runge_error(3, 1, 1024)` is the zero `+0` although `3 ≠ 1`; and
for the order `4` the quotient of the least positive `double` `2^-1074` (the
literal `5e-324`) by `15` rounds to zero, so `runge_error(5e-324, 0, 4)` is `+0`
although `5e-324 ≠ 0`. -/
theorem runge_error_spec_counterexample :
    Binary64.pow2 1024 = Binary64.inf false
      ∧ Binary64.runge_error (Binary64.lit 3 1) (Binary64.lit 1 1) 1024
        = Binary64.fin false 0 (-1074)
      ∧ Binary64.lt (Binary64.lit 1 1) (Binary64.lit 3 1) = true
      ∧ Binary64.runge_error (Binary64.fin false 1 (-1074)) (Binary64.lit 0 1) 4
        = Binary64.fin false 0 (-1074)
      ∧ Binary64.lt (Binary64.lit 0 1) (Binary64.fin false 1 (-1074)) = true := by
  decide

/-- C15 fails as stated in the `double` arithmetic of the code: a duplicate
abscissa is not a fatal error. On `xs = {1, 1}` the divisor `xs[1] - xs[0]` is
the zero `+0`, and `divided_differences` returns a table whose entry `diff[0][1]`
is `+inf` for `ys = {1, 2}` and a NaN for `ys = {2, 2}`. -/
theorem divided_differences_divisor_spec_counterexample :
    Binary64.sub (Binary64.lit 1 1) (Binary64.lit 1 1) = Binary64.fin false 0 (-1074)
      ∧ Binary64.divided_differences [Binary64.lit 1 1, Binary64.lit 1 1]
          [Binary64.lit 1 1, Binary64.lit 2 1] 0 1 = Binary64.inf false
      ∧ Binary64.divided_differences [Binary64.lit 1 1, Binary64.lit 1 1]
          [Binary64.lit 2 1, Binary64.lit 2 1] 0 1 = Binary64.nan := by
  decide

end DoubleArithmetic

end NumToolkit
